import Mathlib

/-! Concurrent password cracking: queue, thread pool and candidate generation.

A shallow embedding of `src/queue.c`, `src/thread_pool.c` and
`src/password_cracker.c`.

* Pointers are 64-bit addresses (`Nat` below `2 ^ 64`), `NULL` is address 0.
* The heap maps an address to the block that `malloc` placed there; `malloc`
  is the environment: every allocating operation takes the address that
  `malloc` returned as an argument (`NULL` when the allocation failed).
* `size_t` arithmetic is taken modulo `2 ^ 64`.
* The critical section between `pthread_mutex_lock` and
  `pthread_mutex_unlock` is one step; `pthread_cond_wait` on an empty queue is
  the outcome `blocked`, which leaves the state as it was.
* `crypt_r` and the work functions are external code and are parameters.
-/

namespace Cracker

/-! ## Data model (`queue.c`, `thread_pool.c`) -/

/-- A pointer value: an address. -/
abbrev Ptr := Nat

/-- The null pointer. -/
abbrev NULL : Ptr := 0

/-- Number of values of `size_t` and of a pointer (LP64). -/
abbrev SIZE_RANGE : Nat := 2 ^ 64

/-- A node of the queue: `struct node`. -/
structure node_t where
  value : Ptr
  next : Ptr
deriving DecidableEq, Repr

/-- A unit of work: `work_t`; the function pointer is a code address. -/
structure work_t where
  function : Nat
  aux : Ptr
deriving DecidableEq, Repr

/-- What a live heap block holds. -/
inductive Block where
  | node (n : node_t)
  | work (w : work_t)
deriving DecidableEq, Repr

/-- The heap: the live blocks by address. -/
abbrev Heap := Ptr → Option Block

/-- The heap with no live block. -/
def Heap.empty : Heap := fun _ => none

/-- Store `b` in the block at `p`. -/
def Heap.write (h : Heap) (p : Ptr) (b : Block) : Heap :=
  fun a => if a = p then some b else h a

/-- The heap after `free(p)`. -/
def Heap.free (h : Heap) (p : Ptr) : Heap :=
  fun a => if a = p then none else h a

/-- The fields `head`, `tail`, `size` of `struct queue` (the lock and the
condition variable are the step granularity, see the header). -/
structure queue_t where
  head : Ptr
  tail : Ptr
  size : Nat
deriving DecidableEq, Repr

/-- The memory an operation of the queue works on. -/
structure Mem where
  heap : Heap
  queue : queue_t

/-- How a call ends. -/
inductive Outcome (α : Type) where
  /-- the call returns -/
  | ok (a : α)
  /-- a failed `assert`: the process is aborted -/
  | abort
  /-- an access through `NULL` or through a pointer to no live block -/
  | fault
  /-- the thread waits in `pthread_cond_wait` -/
  | blocked
  /-- the model ran out of loop iterations -/
  | out_of_fuel

/-- What `malloc` may return on success: a non-null 64-bit address at which no
block is live. -/
def fresh (h : Heap) (m : Ptr) : Prop :=
  m ≠ NULL ∧ m < SIZE_RANGE ∧ h m = none

instance (h : Heap) (m : Ptr) : Decidable (fresh h m) := by
  unfold fresh; infer_instance

/-! ## `queue.c` -/

/-- `queue_init`, with `m` the result of `malloc(sizeof(queue_t))`. The result
is not checked: `pthread_mutex_init(&queue->lock, NULL)` and the three stores
go through `m`. -/
def queue_init (h : Heap) (m : Ptr) : Outcome Mem :=
  if m = NULL then .fault
  else .ok { heap := h, queue := { head := NULL, tail := NULL, size := 0 } }

/-- `queue_enqueue`, with `m` the result of `malloc(sizeof(node_t))`. -/
def queue_enqueue (s : Mem) (value : Ptr) (m : Ptr) : Outcome Mem :=
  -- assert(new_node != NULL);
  if m = NULL then .abort
  else
    -- new_node->value = value; new_node->next = NULL;
    let heap1 := s.heap.write m (.node { value := value, next := NULL })
    if s.queue.size = 0 then
      -- queue->head = new_node; queue->tail = new_node; queue->size++;
      .ok { heap := heap1,
            queue := { head := m, tail := m, size := (s.queue.size + 1) % SIZE_RANGE } }
    else
      -- queue->tail->next = new_node; queue->tail = new_node; queue->size++;
      match heap1 s.queue.tail with
      | some (.node t) =>
        .ok { heap := heap1.write s.queue.tail (.node { t with next := m }),
              queue := { head := s.queue.head, tail := m,
                         size := (s.queue.size + 1) % SIZE_RANGE } }
      | _ => .fault

/-- `queue_dequeue`: the returned value and the memory afterwards. -/
def queue_dequeue (s : Mem) : Outcome (Ptr × Mem) :=
  -- while(queue->size == 0) pthread_cond_wait(&queue->cond, &queue->lock);
  if s.queue.size = 0 then .blocked
  else
    -- node_t *prev_head = queue->head;
    match s.heap s.queue.head with
    | some (.node prev_head) =>
      -- queue->head = prev_head->next; void *value = prev_head->value;
      let head := prev_head.next
      let value := prev_head.value
      -- if(queue->size == 1){ queue->head = NULL; queue->tail = NULL; }
      let head := if s.queue.size = 1 then NULL else head
      let tail := if s.queue.size = 1 then NULL else s.queue.tail
      -- queue->size--; free(prev_head);
      .ok (value, { heap := s.heap.free s.queue.head,
                    queue := { head := head, tail := tail, size := s.queue.size - 1 } })
    | _ => .fault

/-- The nodes linked from `p`, following `next` up to `fuel` links; `none`
when the walk leaves the live nodes or does not reach `NULL` in time. -/
def linked_nodes (h : Heap) : Nat → Ptr → Option (List Ptr)
  | 0, p => if p = NULL then some [] else none
  | fuel + 1, p =>
    if p = NULL then some []
    else match h p with
      | some (.node n) => (linked_nodes h fuel n.next).map (p :: ·)
      | _ => none

/-- A call on the queue by one thread. -/
inductive Op where
  /-- `queue_enqueue(queue, value)`, with the address `malloc` returns -/
  | enqueue (value : Ptr) (m : Ptr)
  /-- `queue_dequeue(queue)` -/
  | dequeue
deriving DecidableEq, Repr

/-- Run the calls in order from `s`; the values the dequeues returned, in
order, and the final memory. -/
def run_ops : Mem → List Op → Outcome (List Ptr × Mem)
  | s, [] => .ok ([], s)
  | s, .enqueue v m :: ops =>
    match queue_enqueue s v m with
    | .ok s1 => run_ops s1 ops
    | .abort => .abort
    | .fault => .fault
    | .blocked => .blocked
    | .out_of_fuel => .out_of_fuel
  | s, .dequeue :: ops =>
    match queue_dequeue s with
    | .ok (v, s1) =>
      match run_ops s1 ops with
      | .ok (vs, s2) => .ok (v :: vs, s2)
      | r => r
    | .abort => .abort
    | .fault => .fault
    | .blocked => .blocked
    | .out_of_fuel => .out_of_fuel

/-- The values passed to the enqueues of `ops`, in order. -/
def enqueued : List Op → List Ptr
  | [] => []
  | .enqueue v _ :: ops => v :: enqueued ops
  | .dequeue :: ops => enqueued ops

/-- The number of dequeues in `ops`. -/
def dequeues : List Op → Nat
  | [] => 0
  | .enqueue _ _ :: ops => dequeues ops
  | .dequeue :: ops => dequeues ops + 1

/-- The environment's part of a run from `s`: every `malloc` returns a fresh
block (an address at which no block is live when it is called). -/
def mallocs_fresh : Mem → List Op → Prop
  | _, [] => True
  | s, .enqueue v m :: ops =>
    fresh s.heap m ∧
      match queue_enqueue s v m with
      | .ok s1 => mallocs_fresh s1 ops
      | _ => True
  | s, .dequeue :: ops =>
    match queue_dequeue s with
    | .ok (_, s1) => mallocs_fresh s1 ops
    | _ => True

/-- The caller's part of a run: with `n` values in the queue, every dequeue
of `ops` is issued when at least one enqueued value is not yet dequeued. -/
def never_empty : Nat → List Op → Prop
  | _, [] => True
  | n, .enqueue _ _ :: ops => never_empty (n + 1) ops
  | n, .dequeue :: ops => 0 < n ∧ never_empty (n - 1) ops

/-- The states of the queue that `queue_init`, `queue_enqueue` and
`queue_dequeue` reach; a dequeue that returns was issued on a queue with
`size > 0`, on an empty queue it is `blocked` and reaches nothing. -/
inductive Reachable : Mem → Prop where
  | init (h : Heap) (m : Ptr) (s : Mem) :
      queue_init h m = .ok s → Reachable s
  | enqueue (s : Mem) (v m : Ptr) (s1 : Mem) :
      Reachable s → fresh s.heap m → queue_enqueue s v m = .ok s1 → Reachable s1
  | dequeue (s : Mem) (v : Ptr) (s1 : Mem) :
      Reachable s → 0 < s.queue.size → queue_dequeue s = .ok (v, s1) → Reachable s1

/-- Where a thread that called `queue_dequeue` is. -/
inductive Dequeuer where
  /-- holds the lock and is about to test `queue->size == 0` -/
  | checking
  /-- inside `pthread_cond_wait`: not runnable until signalled -/
  | waiting
  /-- `queue_dequeue` returned this value -/
  | returned (value : Ptr)
deriving DecidableEq, Repr

/-- One step of a thread inside `queue_dequeue`: the test of the `while` loop
and what follows it under the lock. A waiting or returned thread does nothing. -/
def dequeue_step (s : Mem) : Dequeuer → Outcome (Dequeuer × Mem)
  | .checking =>
    match queue_dequeue s with
    | .ok (v, s1) => .ok (.returned v, s1)
    | .blocked => .ok (.waiting, s)
    | .abort => .abort
    | .fault => .fault
    | .out_of_fuel => .out_of_fuel
  | .waiting => .ok (.waiting, s)
  | .returned v => .ok (.returned v, s)

/-- The effect of `pthread_cond_signal` on a thread inside `queue_dequeue`: a
waiting thread wakes and tests the loop condition again. -/
def cond_signal : Dequeuer → Dequeuer
  | .waiting => .checking
  | d => d

/-- A step of another thread that runs `queue_enqueue(queue, value)`, with
its `pthread_cond_signal`, next to a thread `d` inside `queue_dequeue`. -/
def enqueue_step (s : Mem) (value m : Ptr) (d : Dequeuer) : Outcome (Dequeuer × Mem) :=
  match queue_enqueue s value m with
  | .ok s1 => .ok (cond_signal d, s1)
  | .abort => .abort
  | .fault => .fault
  | .blocked => .blocked
  | .out_of_fuel => .out_of_fuel

/-- The queue after `queue_init()` and `queue_enqueue(queue, 10)` with the
node at address 16. -/
def mem_one : Mem :=
  { heap := Heap.empty.write 16 (.node { value := 10, next := NULL }),
    queue := { head := 16, tail := 16, size := 1 } }

/-- The values held by the nodes linked from `p`, oldest first; `none` when
the walk leaves the live nodes or does not reach `NULL` within `fuel` links. -/
def linked_values (h : Heap) : Nat → Ptr → Option (List Ptr)
  | 0, p => if p = NULL then some [] else none
  | fuel + 1, p =>
    if p = NULL then some []
    else match h p with
      | some (.node n) => (linked_values h fuel n.next).map (n.value :: ·)
      | _ => none

/-- The values in the queue, oldest first. -/
def queue_values (s : Mem) : Option (List Ptr) :=
  linked_values s.heap s.queue.size s.queue.head

/-! ## `thread_pool.c` -/

/-- The field `num_workers` of `struct thread_pool`; its `queue` is the queue
of the memory, its `workers` are the thread handles. -/
structure thread_pool_t where
  num_workers : Nat
deriving DecidableEq, Repr

/-- `thread_pool_init`, with the results of its three `malloc` calls: for the
pool, for the queue (inside `queue_init`) and for the array of handles. None
of them is checked. -/
def thread_pool_init (h : Heap) (num_worker_threads : Nat) (m_pool m_queue m_workers : Ptr) :
    Outcome (thread_pool_t × Mem) :=
  -- pool->queue = queue_init();
  match queue_init h m_queue with
  | .ok s =>
    if m_pool = NULL then .fault
    -- pthread_create(&workers[i], NULL, thread_tasks, pool->queue) stores through workers
    else if m_workers = NULL ∧ 0 < num_worker_threads then .fault
    else .ok ({ num_workers := num_worker_threads }, s)
  | .abort => .abort
  | .fault => .fault
  | .blocked => .blocked
  | .out_of_fuel => .out_of_fuel

/-- `thread_pool_add_work`, with `m_work` the result of
`malloc(sizeof(work_t))` and `m_node` the result of the `malloc` inside
`queue_enqueue`. -/
def thread_pool_add_work (s : Mem) (function : Nat) (aux : Ptr) (m_work m_node : Ptr) :
    Outcome Mem :=
  -- work->function = function; work->aux = aux;
  if m_work = NULL then .fault
  else
    queue_enqueue
      { s with heap := s.heap.write m_work (.work { function := function, aux := aux }) }
      m_work m_node

/-- The first loop of `thread_pool_finish`, `n` iterations from index `i`:
`queue_enqueue(pool->queue, NULL)`, with `ms i` the result of the `malloc` of
iteration `i`. -/
def sentinel_loop (ms : Nat → Ptr) : Nat → Nat → Mem → Outcome Mem
  | 0, _, s => .ok s
  | n + 1, i, s =>
    match queue_enqueue s NULL (ms i) with
    | .ok s1 => sentinel_loop ms n (i + 1) s1
    | r => r

/-- The part of `thread_pool_finish` that enqueues:
`for(size_t i = 0; i < pool->num_workers; i++) queue_enqueue(pool->queue, NULL);`
(the joins that follow it wait for the workers). -/
def thread_pool_finish_enqueue (pool : thread_pool_t) (ms : Nat → Ptr) (s : Mem) : Outcome Mem :=
  sentinel_loop ms pool.num_workers 0 s

/-- The arguments of one `thread_pool_add_work` call and what its two `malloc`
calls return. -/
structure AddWork where
  function : Nat
  aux : Ptr
  m_work : Ptr
  m_node : Ptr
deriving DecidableEq, Repr

/-- The calls `thread_pool_add_work(pool, c.function, c.aux)` in order. -/
def add_works : Mem → List AddWork → Outcome Mem
  | s, [] => .ok s
  | s, c :: cs =>
    match thread_pool_add_work s c.function c.aux c.m_work c.m_node with
    | .ok s1 => add_works s1 cs
    | r => r

/-- The environment's part of `add_works`: each `malloc` returns a fresh
block, and `after` holds of the memory the calls leave (the environment's part
of what runs next). -/
def add_works_fresh (after : Mem → Prop) : Mem → List AddWork → Prop
  | s, [] => after s
  | s, c :: cs =>
    fresh s.heap c.m_work ∧
    fresh (s.heap.write c.m_work (.work { function := c.function, aux := c.aux })) c.m_node ∧
      match thread_pool_add_work s c.function c.aux c.m_work c.m_node with
      | .ok s1 => add_works_fresh after s1 cs
      | _ => True

/-- The environment's part of `sentinel_loop`: each `malloc` returns a fresh block. -/
def sentinel_loop_fresh (ms : Nat → Ptr) : Nat → Nat → Mem → Prop
  | 0, _, _ => True
  | n + 1, i, s =>
    fresh s.heap (ms i) ∧
      match queue_enqueue s NULL (ms i) with
      | .ok s1 => sentinel_loop_fresh ms n (i + 1) s1
      | _ => True

/-- What a worker does that others can observe. -/
inductive Event where
  /-- `queue_dequeue` returned `value` -/
  | dequeued (value : Ptr)
  /-- the call `function(aux)` -/
  | called (function : Nat) (aux : Ptr)
deriving DecidableEq, Repr

/-- `thread_tasks` run by one thread, with at most `fuel` iterations of its
loop: the events in order and the memory when it returns. The work function
is external code; it is taken not to touch the queue or the heap blocks of
the pool. -/
def thread_tasks : Nat → Mem → Outcome (List Event × Mem)
  | 0, _ => .out_of_fuel
  | fuel + 1, s =>
    -- work_t *curr_task = (work_t *) queue_dequeue(queue);
    match queue_dequeue s with
    | .ok (curr_task, s1) =>
      -- if(curr_task == NULL){return NULL;}
      if curr_task = NULL then .ok ([.dequeued NULL], s1)
      else
        -- (curr_task->function)(curr_task->aux); free(curr_task);
        match s1.heap curr_task with
        | some (.work w) =>
          match thread_tasks fuel { s1 with heap := s1.heap.free curr_task } with
          | .ok (evs, s2) => .ok (.dequeued curr_task :: .called w.function w.aux :: evs, s2)
          | r => r
        | _ => .fault
    | .abort => .abort
    | .fault => .fault
    | .blocked => .blocked
    | .out_of_fuel => .out_of_fuel

/-- The events of a worker that takes the work items at `ps`, holding `ws`,
one after the other. -/
def work_events : List Ptr → List work_t → List Event
  | p :: ps, w :: ws => .dequeued p :: .called w.function w.aux :: work_events ps ws
  | _, _ => []

/-- The blocks at `ps` are live work items holding `ws`, in order. -/
def holds_work (h : Heap) : List Ptr → List work_t → Prop
  | [], [] => True
  | p :: ps, w :: ws => p ≠ NULL ∧ h p = some (.work w) ∧ holds_work h ps ws
  | _, _ => False

/-- The calls `function(aux)` among the events, in order. -/
def calls_of : List Event → List (Nat × Ptr)
  | [] => []
  | .called f a :: evs => (f, a) :: calls_of evs
  | .dequeued _ :: evs => calls_of evs

/-- The number of values that `queue_dequeue` returned among the events. -/
def dequeue_count : List Event → Nat
  | [] => 0
  | .called _ _ :: evs => dequeue_count evs
  | .dequeued _ :: evs => dequeue_count evs + 1

/-- The empty queue that `queue_init` returns in the heap with no block. -/
def mem_init : Mem :=
  { heap := Heap.empty, queue := { head := NULL, tail := NULL, size := 0 } }

/-- Two submissions of the function at code address 1000, the first with
argument `NULL`, the second with argument 7. -/
def demo_calls : List AddWork :=
  [{ function := 1000, aux := NULL, m_work := 112, m_node := 128 },
   { function := 1000, aux := 7, m_work := 144, m_node := 160 }]

/-- The blocks `malloc` returns in the enqueue loop of `thread_pool_finish`. -/
def demo_ms : Nat → Ptr := fun i => 208 + 16 * i

/-- A queue of four values: pointers to the work items at 112 and 144, a
sentinel, and the value 999 behind the sentinel. -/
def mem_work : Mem :=
  { heap := fun a =>
      if a = 112 then some (.work { function := 1000, aux := NULL })
      else if a = 144 then some (.work { function := 1001, aux := 7 })
      else if a = 128 then some (.node { value := 112, next := 160 })
      else if a = 160 then some (.node { value := 144, next := 208 })
      else if a = 208 then some (.node { value := NULL, next := 224 })
      else if a = 224 then some (.node { value := 999, next := NULL })
      else none,
    queue := { head := 128, tail := 224, size := 4 } }

/-! ## `password_cracker.c` -/

/-- Sequencing of calls: the first outcome that is not `ok` ends the run. -/
def Outcome.bind {α β : Type} : Outcome α → (α → Outcome β) → Outcome β
  | .ok a, f => f a
  | .abort, _ => .abort
  | .fault, _ => .fault
  | .blocked, _ => .blocked
  | .out_of_fuel, _ => .out_of_fuel

/-- `SALT_LENGTH`. -/
abbrev SALT_LENGTH : Nat := 20

/-- `HASH_LENGTH`. -/
abbrev HASH_LENGTH : Nat := 106

/-- A block of `char` that `malloc` returned: a byte is `none` until it is
stored to. -/
abbrev Buf := List (Option Nat)

/-- The store `b[i] = c`; `none` when `i` is outside the block. -/
def Buf.store (b : Buf) (i : Nat) (c : Nat) : Option Buf :=
  if i < b.length then some (b.set i (some c)) else none

/-- `strlen` on the bytes from a pointer to the end of its block: the index
of the first NUL; `none` when the block holds no NUL. -/
def strlen : List Nat → Option Nat
  | [] => none
  | c :: rest => if c = 0 then some 0 else (strlen rest).map (· + 1)

/-- The tail of `strncpy` once the NUL of the source was copied: `n` more
NUL bytes from `dst + d`. -/
def strncpy_pad (dst : Buf) (d : Nat) : Nat → Option Buf
  | 0 => some dst
  | n + 1 =>
    match dst.store d 0 with
    | none => none
    | some dst1 => strncpy_pad dst1 (d + 1) n

/-- `strncpy(dst + d, src + sp, n)`, with `src` the block of the source:
copies up to `n` bytes, and after a NUL fills up with NUL; `none` when a load
or a store leaves its block. -/
def strncpy (dst : Buf) (d : Nat) (src : List Nat) (sp : Nat) : Nat → Option Buf
  | 0 => some dst
  | n + 1 =>
    match src[sp]? with
    | none => none
    | some c =>
      match dst.store d c with
      | none => none
      | some dst1 =>
        if c = 0 then strncpy_pad dst1 (d + 1) n else strncpy dst1 (d + 1) src (sp + 1) n

/-- The string a callee (`crypt_r`, `printf`) reads at the start of a block
that is followed in memory by the bytes `beyond`: the bytes before the first
NUL. It is `none` when an indeterminate byte is read or no NUL is found before
readable memory ends; `beyond = []` is the reading of the C standard, in which
no byte behind the block may be read. -/
def read_string : Buf → List Nat → Option (List Nat)
  | [], beyond => if 0 ∈ beyond then some (beyond.takeWhile (· ≠ 0)) else none
  | none :: _, _ => none
  | some c :: rest, beyond =>
    if c = 0 then some [] else (read_string rest beyond).map (c :: ·)

/-- `hashes_match(password, hash)`. `password` is the string `crypt_r` reads
at its first argument, `hash` the bytes of the block of the target hash.
`crypt_r` is the library: it maps the key and the salt string to the hashed
string, or to `none` for the null pointer it returns on failure; `data` was
zeroed by `memset`, so the bytes behind the hashed string are 0. -/
def hashes_match (crypt_r : List Nat → List Nat → Option (List Nat))
    (password : List Nat) (hash : List Nat) : Outcome Bool :=
  -- memcpy(salt, hash, sizeof(char[SALT_LENGTH])); salt[SALT_LENGTH] = 0;
  if hash.length < SALT_LENGTH then .fault
  else
    let salt := (hash.take SALT_LENGTH).takeWhile (· ≠ 0)
    -- char *hashed = crypt_r(password, salt, &data);
    match crypt_r password salt with
    | none => .fault
    | some hashed =>
      -- memcmp(&hashed[SALT_LENGTH], &hash[SALT_LENGTH], HASH_LENGTH - SALT_LENGTH) == 0
      if hash.length < HASH_LENGTH then .fault
      else
        let hashed_hash := (List.range (HASH_LENGTH - SALT_LENGTH)).map
          (fun k => hashed.getD (SALT_LENGTH + k) 0)
        let hash_hash := (hash.drop SALT_LENGTH).take (HASH_LENGTH - SALT_LENGTH)
        .ok (decide (hashed_hash = hash_hash))

/-- The loop over `hash_idx` in `try_variants` for one state of `attempt`: the
lines `printf` writes. -/
def report_loop (crypt_r : List Nat → List Nat → Option (List Nat)) (attempt : Buf)
    (beyond : List Nat) : List (List Nat) → Outcome (List (List Nat))
  | [] => .ok []
  | hash :: hashes =>
    match read_string attempt beyond with
    | none => .fault
    | some password =>
      (hashes_match crypt_r password hash).bind fun b =>
      (report_loop crypt_r attempt beyond hashes).bind fun out =>
      -- if(hashes_match(attempt, hashes[hash_idx])) printf(attempt);
      .ok (if b then password :: out else out)

/-- The characters `num` runs through: `'0'` to `'9'`. -/
def digits : List Nat := [48, 49, 50, 51, 52, 53, 54, 55, 56, 57]

/-- The loop over `num` in `try_variants`, for the digits still to come: for
each the block `attempt` after `attempt[i] = num` and the lines printed. -/
def digit_loop (crypt_r : List Nat → List Nat → Option (List Nat)) (hashes : List (List Nat))
    (beyond : List Nat) (i : Nat) : Buf → List Nat → Outcome (List (Buf × List (List Nat)))
  | _, [] => .ok []
  | attempt, num :: nums =>
    -- attempt[i] = num;
    match attempt.store i num with
    | none => .fault
    | some attempt1 =>
      (report_loop crypt_r attempt1 beyond hashes).bind fun out =>
      (digit_loop crypt_r hashes beyond i attempt1 nums).bind fun trials =>
      .ok ((attempt1, out) :: trials)

/-- The loop over `i` in `try_variants`, `n` iterations from `i`. -/
def position_loop (crypt_r : List Nat → List Nat → Option (List Nat))
    (hashes : List (List Nat)) (beyond : Nat → List Nat) (dict_word : List Nat)
    (str_len : Nat) : Nat → Nat → Outcome (List (Buf × List (List Nat)))
  | 0, _ => .ok []
  | n + 1, i =>
    -- char *attempt = malloc(sizeof(char) * (str_len + 1));
    let attempt : Buf := List.replicate (str_len + 1) none
    -- strncpy(attempt, dict_word, i);
    match strncpy attempt 0 dict_word 0 i with
    | none => .fault
    | some attempt1 =>
      -- strncpy(attempt + i + 1, dict_word + i, str_len - i);
      match strncpy attempt1 (i + 1) dict_word i (str_len - i) with
      | none => .fault
      | some attempt2 =>
        (digit_loop crypt_r hashes (beyond i) i attempt2 digits).bind fun trials =>
        (position_loop crypt_r hashes beyond dict_word str_len n (i + 1)).bind fun more =>
        .ok (trials ++ more)

/-- `try_variants(word)`. `dict_word` is the block of bytes at `word`,
`hashes` the blocks of the target hashes, `beyond i` the bytes that follow in
memory the block that `malloc` returns in iteration `i`. The result lists, for
each pair of a position and a digit in the order of the loops, the block
`attempt` handed to `hashes_match` and the lines printed for it. The block of
the word is in memory, so `str_len + 1` does not wrap. -/
def try_variants (crypt_r : List Nat → List Nat → Option (List Nat))
    (hashes : List (List Nat)) (beyond : Nat → List Nat) (dict_word : List Nat) :
    Outcome (List (Buf × List (List Nat))) :=
  -- size_t str_len = strlen(dict_word);
  match strlen dict_word with
  | none => .fault
  | some str_len =>
    -- for(size_t i = 0; i <= str_len; i++)
    position_loop crypt_r hashes beyond dict_word str_len (str_len + 1) 0

/-- The candidate of the claim for position `i` and digit `d`: the first `i`
characters of `w`, then `d`, then the rest of `w`. -/
def candidate (w : List Nat) (i d : Nat) : List Nat :=
  w.take i ++ d :: w.drop i

/-- The pairs of a position and a digit of the claim, from position `i` on,
`n` positions: every position with every digit `'0'` to `'9'`. -/
def candidate_keys : Nat → Nat → List (Nat × Nat)
  | 0, _ => []
  | n + 1, i => digits.map (fun d => (i, d)) ++ candidate_keys n (i + 1)

/-- Run `f` on each element in order, up to the first outcome that is not `ok`. -/
def for_each {α β : Type} (f : α → Outcome β) : List α → Outcome (List β)
  | [] => .ok []
  | x :: xs => (f x).bind fun y => (for_each f xs).bind fun ys => .ok (y :: ys)

/-- What the claim expects for one candidate block: the lines reported for
it, next to the block. -/
def trial (crypt_r : List Nat → List Nat → Option (List Nat)) (hashes : List (List Nat))
    (beyond : List Nat) (block : Buf) : Outcome (Buf × List (List Nat)) :=
  (report_loop crypt_r block beyond hashes).bind fun out => .ok (block, out)

/-- A stand-in for `crypt_r` in examples: the salt, then 86 times the first
character of the key. -/
def demo_crypt : List Nat → List Nat → Option (List Nat) :=
  fun key salt => some (salt ++ List.replicate 86 (key.headD 33))

/-- The comparison of the claim: characters 20..105 of `crypt(c, salt)` equal
characters 20..105 of `h`, with `salt` the first 20 characters of `h`. -/
def digest_equal (crypt_r : List Nat → List Nat → Option (List Nat)) (c h : List Nat) : Bool :=
  match crypt_r c (h.take 20) with
  | some hashed => decide ((hashed.drop 20).take 86 = (h.drop 20).take 86)
  | none => false

/-- A target hash for examples: 20 characters `$` and 86 characters `0`. -/
def demo_hash : List Nat := List.replicate 20 36 ++ List.replicate 86 48

/-- A stand-in for `crypt_r` under which exactly the key `a7` hashes to
`demo_hash`: the salt, then 86 times `0` for the key `a7` and 86 times `1`
for every other key. -/
def crypt_a7 : List Nat → List Nat → Option (List Nat) :=
  fun key salt => some (salt ++ List.replicate 86 (if key = [97, 55] then 48 else 49))

/-- What `try_variants` returns when nothing is printed: every candidate
block of the word `w`, each with no line. -/
def silent_trials (w : List Nat) : List (Buf × List (List Nat)) :=
  (candidate_keys (w.length + 1) 0).map (fun k => ((candidate w k.1 k.2).map some, []))

/-! ## The pool as a transition system (`thread_pool.c` with its threads) -/

/-- Where a worker thread is in `thread_tasks`. -/
inductive Worker where
  /-- about to run the test `queue->size == 0` of `queue_dequeue` under the
  lock: at the start of an iteration, or woken from the wait -/
  | idle
  /-- inside `pthread_cond_wait`: not runnable until woken -/
  | waiting
  /-- `queue_dequeue` returned the non-null `task`; the call of its function is next -/
  | running (task : Ptr)
  /-- the function returned; `free(curr_task)` is next -/
  | freeing (task : Ptr)
  /-- `thread_tasks` returned -/
  | exited
deriving DecidableEq, Repr

/-- Where the main thread is: it submits the tasks in order and then calls
`thread_pool_finish`. -/
inductive Main where
  /-- about to call `thread_pool_add_work` for task `k`: the `malloc` of the
  work item and the two stores are next (after the last task: the call of
  `thread_pool_finish`) -/
  | adding (k : Nat)
  /-- inside `thread_pool_add_work` for task `k`: `queue_enqueue` of `work` is next -/
  | enqueuing (k : Nat) (work : Ptr)
  /-- in the first loop of `thread_pool_finish`, `i` sentinels enqueued -/
  | finishing (i : Nat)
  /-- in the second loop of `thread_pool_finish`: `pthread_join(workers[j])` is next -/
  | joining (j : Nat)
  /-- `thread_pool_finish` returned -/
  | done
deriving DecidableEq, Repr

/-- A configuration of the program: the memory, the pool, the threads, and
the calls `function(aux)` the workers made so far, in order. -/
structure Config where
  mem : Mem
  pool : thread_pool_t
  main : Main
  workers : List Worker
  calls : List (Nat × Ptr)

/-- A choice of the scheduler and of the environment. -/
inductive Sched where
  /-- the main thread takes its next step; `m` is what `malloc` returns if the
  step allocates, `wake` the worker `pthread_cond_signal` picks if it signals -/
  | main (m : Ptr) (wake : Nat)
  /-- worker `i` takes its next step -/
  | worker (i : Nat)
  /-- worker `i` wakes from `pthread_cond_wait` without a signal -/
  | wakeup (i : Nat)
deriving DecidableEq, Repr

/-- `pthread_cond_signal(&queue->cond)`: if workers wait, one of them wakes,
the picked one if it waits and else the first that waits. -/
def signal_workers (ws : List Worker) (wake : Nat) : List Worker :=
  if ws[wake]? = some .waiting then ws.set wake .idle
  else ws.set (ws.indexOf .waiting) .idle

/-- A step of the main thread, for the tasks `(function, aux)` it submits. -/
def main_step (tasks : List (Nat × Ptr)) (c : Config) (m : Ptr) (wake : Nat) : Outcome Config :=
  match c.main with
  | .adding k =>
    match tasks[k]? with
    | some (function, aux) =>
      -- work_t *work = malloc(sizeof(work_t)); work->function = function; work->aux = aux;
      if m = NULL then .fault
      else .ok { c with
        mem := { c.mem with
          heap := c.mem.heap.write m (.work { function := function, aux := aux }) },
        main := .enqueuing k m }
    | none => .ok { c with main := .finishing 0 }
  | .enqueuing k work =>
    -- queue_enqueue(pool->queue, (void *)work);
    match queue_enqueue c.mem work m with
    | .ok mem1 =>
      .ok { c with mem := mem1, main := .adding (k + 1),
                   workers := signal_workers c.workers wake }
    | .abort => .abort
    | .fault => .fault
    | .blocked => .blocked
    | .out_of_fuel => .out_of_fuel
  | .finishing i =>
    -- for(size_t i = 0; i < pool->num_workers; i++) queue_enqueue(pool->queue, NULL);
    if i < c.pool.num_workers then
      match queue_enqueue c.mem NULL m with
      | .ok mem1 =>
        .ok { c with mem := mem1, main := .finishing (i + 1),
                     workers := signal_workers c.workers wake }
      | .abort => .abort
      | .fault => .fault
      | .blocked => .blocked
      | .out_of_fuel => .out_of_fuel
    else .ok { c with main := .joining 0 }
  | .joining j =>
    -- for (size_t j = 0; j < pool->num_workers; j++) pthread_join(pool->workers[j], NULL);
    if j < c.pool.num_workers then
      if c.workers[j]? = some .exited then .ok { c with main := .joining (j + 1) }
      else .ok c
    else .ok { c with main := .done }
  | .done => .ok c

/-- A step of worker `i` in `thread_tasks`; a waiting or exited worker does
nothing. -/
def worker_step (c : Config) (i : Nat) : Outcome Config :=
  match c.workers[i]? with
  | some .idle =>
    -- work_t *curr_task = (work_t *) queue_dequeue(queue);
    match queue_dequeue c.mem with
    | .ok (curr_task, mem1) =>
      -- if(curr_task == NULL){return NULL;}
      if curr_task = NULL then .ok { c with mem := mem1, workers := c.workers.set i .exited }
      else .ok { c with mem := mem1, workers := c.workers.set i (.running curr_task) }
    | .blocked => .ok { c with workers := c.workers.set i .waiting }
    | .abort => .abort
    | .fault => .fault
    | .out_of_fuel => .out_of_fuel
  | some (.running task) =>
    -- (curr_task->function)(curr_task->aux);
    match c.mem.heap task with
    | some (.work w) =>
      .ok { c with calls := c.calls ++ [(w.function, w.aux)],
                   workers := c.workers.set i (.freeing task) }
    | _ => .fault
  | some (.freeing task) =>
    -- free(curr_task);
    match c.mem.heap task with
    | some _ =>
      .ok { c with mem := { c.mem with heap := c.mem.heap.free task },
                   workers := c.workers.set i .idle }
    | none => .fault
  | _ => .ok c

/-- One step of the program. -/
def step (tasks : List (Nat × Ptr)) (c : Config) : Sched → Outcome Config
  | .main m wake => main_step tasks c m wake
  | .worker i => worker_step c i
  | .wakeup i =>
    if c.workers[i]? = some .waiting then .ok { c with workers := c.workers.set i .idle }
    else .ok c

/-- The run of the program along a schedule. -/
def run (tasks : List (Nat × Ptr)) : Config → List Sched → Outcome Config
  | c, [] => .ok c
  | c, e :: es =>
    match step tasks c e with
    | .ok c1 => run tasks c1 es
    | r => r

/-- Whether the next step of the main thread calls `malloc`. -/
def allocates (tasks : List (Nat × Ptr)) (c : Config) : Prop :=
  match c.main with
  | .adding k => k < tasks.length
  | .enqueuing _ _ => True
  | .finishing i => i < c.pool.num_workers
  | _ => False

/-- The environment's part of a run: each `malloc` returns a fresh block. -/
def sched_fresh (tasks : List (Nat × Ptr)) : Config → List Sched → Prop
  | _, [] => True
  | c, e :: es =>
    (match e with
      | .main m _ => allocates tasks c → fresh c.mem.heap m
      | .worker _ => True
      | .wakeup _ => True) ∧
    match step tasks c e with
    | .ok c1 => sched_fresh tasks c1 es
    | _ => True

/-- The configuration when `thread_pool_init` returns: every worker was
started by `pthread_create` (its result is not checked; it is taken to
succeed) and the main thread is about to submit task 0. -/
def init_config (pool : thread_pool_t) (s0 : Mem) : Config :=
  { mem := s0, pool := pool, main := .adding 0,
    workers := List.replicate pool.num_workers .idle, calls := [] }

/-- Two tasks for examples. -/
def demo_tasks : List (Nat × Ptr) := [(1000, NULL), (1001, 7)]

/-- A schedule of the two tasks on two workers that ends with
`thread_pool_finish` returned: both workers wait, each takes one task, the
main thread enqueues the sentinels and joins. -/
def demo_sched : List Sched :=
  [.worker 0, .main 112 0, .worker 1, .main 128 0, .worker 0, .main 144 0, .worker 0,
   .main 160 1, .worker 1, .worker 1, .worker 0, .worker 1, .main 0 0, .main 176 0,
   .main 192 0, .main 0 0, .worker 0, .worker 1, .main 0 0, .main 0 0, .main 0 0]

/-- What a run shows of its last configuration: the main thread, the workers
and the calls made. -/
def summary : Outcome Config → Option (Main × List Worker × List (Nat × Ptr))
  | .ok c => some (c.main, c.workers, c.calls)
  | _ => none

/-! ## Representation of the queue (used in the proofs) -/

/-- The chain from `p` is the nodes at the addresses `xs.map Prod.fst`, in
order, holding the values `xs.map Prod.snd`, and ends in `NULL`. -/
def Rep (h : Heap) : Ptr → List (Ptr × Ptr) → Prop
  | p, [] => p = NULL
  | p, (a, v) :: xs =>
    p = a ∧ a ≠ NULL ∧ ∃ nx, h a = some (.node { value := v, next := nx }) ∧ Rep h nx xs

/-- The queue invariant, with the linked nodes and their values made explicit. -/
structure QInv (s : Mem) (xs : List (Ptr × Ptr)) : Prop where
  rep : Rep s.heap s.queue.head xs
  size_eq : s.queue.size = xs.length
  tail_eq : s.queue.tail = ((xs.map Prod.fst).getLast?).getD NULL
  nodup : (xs.map Prod.fst).Nodup
  bound : ∀ x ∈ xs, x.1 < SIZE_RANGE

/-! ## Invariant of the pool (used in the proofs) -/

/-- The work item a worker holds. -/
def wptr : Worker → List Ptr
  | .running p => [p]
  | .freeing p => [p]
  | _ => []

/-- The work item a worker holds and has not yet called. -/
def wtodo : Worker → List Ptr
  | .running p => [p]
  | _ => []

/-- The pointers `f` selects from the workers, in the order of the workers. -/
def gather (f : Worker → List Ptr) : List Worker → List Ptr
  | [] => []
  | w :: ws => f w ++ gather f ws

/-- The work item the main thread has built and not yet enqueued. -/
def mptr : Main → List Ptr
  | .enqueuing _ p => [p]
  | _ => []

/-- The number of tasks whose work item was built. -/
def progress (tasks : List (Nat × Ptr)) : Main → Nat
  | .adding k => k
  | .enqueuing k _ => k + 1
  | _ => tasks.length

/-- The number of sentinels enqueued so far. -/
def sentinels (c : Config) : Nat :=
  match c.main with
  | .finishing i => i
  | .joining _ => c.pool.num_workers
  | .done => c.pool.num_workers
  | _ => 0

/-- The call that the work item at `p` stands for. -/
def task_of (h : Heap) (p : Ptr) : Nat × Ptr :=
  match h p with
  | some (.work w) => (w.function, w.aux)
  | _ => (0, 0)

/-- The bounds of the position of the main thread. -/
def main_ok (tasks : List (Nat × Ptr)) (c : Config) : Prop :=
  match c.main with
  | .adding k => k ≤ tasks.length
  | .enqueuing k _ => k < tasks.length
  | .finishing i => i ≤ c.pool.num_workers
  | .joining j => j ≤ c.pool.num_workers ∧ ∀ i, i < j → c.workers[i]? = some .exited
  | .done => ∀ w ∈ c.workers, w = .exited

/-- The invariant of the pool: the queue holds the nodes `xs`, whose values
are the work items `qptrs` followed by `z` sentinels; the work items held by
the workers, the queue and the main thread are distinct live blocks; and the
calls made so far together with the calls still to make are the tasks
submitted so far. -/
structure PInv (tasks : List (Nat × Ptr)) (c : Config) (xs : List (Ptr × Ptr))
    (qptrs : List Ptr) (z : Nat) : Prop where
  qinv : QInv c.mem xs
  vals : xs.map Prod.snd = qptrs ++ List.replicate z NULL
  nworkers : c.workers.length = c.pool.num_workers
  nodup : (gather wptr c.workers ++ qptrs ++ mptr c.main).Nodup
  live : ∀ p ∈ gather wptr c.workers ++ qptrs ++ mptr c.main,
    p ≠ NULL ∧ ∃ w, c.mem.heap p = some (.work w)
  acct : (c.calls ++ (gather wtodo c.workers ++ qptrs ++ mptr c.main).map
    (task_of c.mem.heap)).Perm (tasks.take (progress tasks c.main))
  sent : z + c.workers.count .exited = sentinels c
  drained : 0 < c.workers.count .exited → qptrs = []
  main_ok : main_ok tasks c

/-- No wake-up is lost: while a worker waits, every value in the queue (there
are `n`) has an idle worker that will test the queue again. -/
def Wake (ws : List Worker) (n : Nat) : Prop :=
  Worker.waiting ∈ ws → n ≤ ws.count .idle

/-- The invariant of the pool, for some contents of the queue. -/
def Inv (tasks : List (Nat × Ptr)) (c : Config) : Prop :=
  ∃ xs qptrs z, PInv tasks c xs qptrs z ∧ Wake c.workers xs.length

/-- Every thread is blocked: the main thread in `pthread_join` on a worker
that has not exited, and every worker has exited or waits in
`pthread_cond_wait`. -/
def deadlocked (c : Config) : Prop :=
  (∃ j, c.main = .joining j ∧ j < c.pool.num_workers ∧ c.workers[j]? ≠ some .exited) ∧
  ∀ w ∈ c.workers, w = .waiting ∨ w = .exited

/-- The steps the main thread still has to take up to the return of
`thread_pool_finish`, for `K` tasks and `N` workers. -/
def main_left (K N : Nat) : Main → Nat
  | .adding k => 2 * (K - k) + 2 * N + 3
  | .enqueuing k _ => 2 * (K - k) + 2 * N + 2
  | .finishing i => (N - i) + N + 2
  | .joining j => (N - j) + 1
  | .done => 0

/-- The steps the program still has to take up to the return of
`thread_pool_finish`: those of the main thread; for every task not yet taken
from the queue its dequeue, its call and its `free`; for every task taken what
is left of these; and for every worker not yet exited the dequeue of its
sentinel. -/
def work_left (tasks : List (Nat × Ptr)) (c : Config) : Nat :=
  main_left tasks.length c.pool.num_workers c.main
    + 3 * (tasks.length - (c.calls.length + (gather wtodo c.workers).length))
    + (gather wtodo c.workers).length + (gather wptr c.workers).length
    + (c.pool.num_workers - c.workers.count .exited)

/-- Whether the scheduled thread can do work of the program: the main thread
unless it has returned or waits in `pthread_join` for a worker that has not
exited; a worker that calls or frees, or that tests the queue while it holds a
value. (A worker that tests the empty queue only goes to wait.) -/
def productive (c : Config) : Sched → Bool
  | .main _ _ =>
    match c.main with
    | .joining j => decide (¬ (j < c.pool.num_workers ∧ c.workers[j]? ≠ some .exited))
    | .done => false
    | _ => true
  | .worker i =>
    match c.workers[i]? with
    | some .idle => decide (0 < c.mem.queue.size)
    | some (.running _) => true
    | some (.freeing _) => true
    | _ => false
  | .wakeup _ => false

/-- The number of productive steps of the run along a schedule. -/
def productive_steps (tasks : List (Nat × Ptr)) : Config → List Sched → Nat
  | _, [] => 0
  | c, e :: es =>
    (if productive c e then 1 else 0) +
      match step tasks c e with
      | .ok c1 => productive_steps tasks c1 es
      | _ => 0

/-- No block is live at `b` or above: `malloc` can return `b`. -/
def room_from (h : Heap) (b : Ptr) : Prop :=
  ∀ a, b ≤ a → h a = none

/-- What the environment owes a step: the block `malloc` returns is fresh. -/
def step_fresh (tasks : List (Nat × Ptr)) (c : Config) : Sched → Prop
  | .main m _ => allocates tasks c → fresh c.mem.heap m
  | _ => True

/-! ## Theorems -/

theorem nodup_length_lt (l : List Nat) (N : Nat) (hnd : l.Nodup)
    (hb : ∀ a ∈ l, a ≠ 0 ∧ a < N) : l.length < N ∨ l = [] := by
  by_cases hl : l = []
  · exact Or.inr hl
  left
  have h1 : l.toFinset ⊆ (Finset.range N).erase 0 := by
    intro a ha
    have := hb a (List.mem_toFinset.mp ha)
    simp [this.1, this.2]
  have h2 := Finset.card_le_card h1
  rw [List.toFinset_card_of_nodup hnd] at h2
  obtain ⟨a, ha⟩ := List.exists_mem_of_ne_nil l hl
  have hN : 0 < N := lt_of_le_of_lt (Nat.zero_le _) (hb a ha).2
  rw [Finset.card_erase_of_mem (by simp [hN]), Finset.card_range] at h2
  omega

theorem Rep_frame (h h1 : Heap) (p : Ptr) (xs : List (Ptr × Ptr))
    (hr : Rep h p xs) (hf : ∀ x ∈ xs, h1 x.1 = h x.1) : Rep h1 p xs := by
  induction xs generalizing p with
  | nil => exact hr
  | cons x xs ih =>
    obtain ⟨a, v⟩ := x
    obtain ⟨hp, ha, nx, hh, hrest⟩ := hr
    refine ⟨hp, ha, nx, ?_, ih nx hrest (fun y hy => hf y (List.mem_cons_of_mem _ hy))⟩
    rw [hf (a, v) (List.mem_cons_self _ _)]; exact hh

theorem Rep_live (h : Heap) (p : Ptr) (xs : List (Ptr × Ptr)) (hr : Rep h p xs) :
    ∀ x ∈ xs, x.1 ≠ NULL ∧ ∃ nx, h x.1 = some (.node { value := x.2, next := nx }) := by
  induction xs generalizing p with
  | nil => intro x hx; cases hx
  | cons y xs ih =>
    obtain ⟨a, v⟩ := y
    obtain ⟨_, ha, nx, hh, hrest⟩ := hr
    intro x hx
    rcases List.mem_cons.mp hx with rfl | hx
    · exact ⟨ha, nx, hh⟩
    · exact ih nx hrest x hx

theorem Rep_head (h : Heap) (p : Ptr) (xs : List (Ptr × Ptr)) (hr : Rep h p xs) :
    p = ((xs.map Prod.fst).head?).getD NULL := by
  cases xs with
  | nil => exact hr
  | cons x xs => obtain ⟨a, v⟩ := x; exact hr.1

theorem Rep_last (h : Heap) (p t vt : Ptr) (xs : List (Ptr × Ptr))
    (hr : Rep h p (xs ++ [(t, vt)])) :
    h t = some (.node { value := vt, next := NULL }) := by
  induction xs generalizing p with
  | nil =>
    obtain ⟨_, _, nx, hh, hnx⟩ := hr
    have : nx = NULL := hnx
    rw [hh, this]
  | cons x xs ih =>
    obtain ⟨a, v⟩ := x
    obtain ⟨_, _, nx, _, hrest⟩ := hr
    exact ih nx hrest

theorem Rep_snoc (h h2 : Heap) (p t vt m v : Ptr) (xs : List (Ptr × Ptr))
    (hr : Rep h p (xs ++ [(t, vt)])) (hm0 : m ≠ NULL)
    (h2m : h2 m = some (.node { value := v, next := NULL }))
    (h2t : h2 t = some (.node { value := vt, next := m }))
    (h2xs : ∀ x ∈ xs, h2 x.1 = h x.1) :
    Rep h2 p (xs ++ [(t, vt), (m, v)]) := by
  induction xs generalizing p with
  | nil =>
    obtain ⟨hp, ht, _, _, _⟩ := hr
    exact ⟨hp, ht, m, h2t, rfl, hm0, NULL, h2m, rfl⟩
  | cons x xs ih =>
    obtain ⟨a, va⟩ := x
    obtain ⟨hp, ha, nx, hh, hrest⟩ := hr
    refine ⟨hp, ha, nx, ?_, ih nx hrest (fun y hy => h2xs y (List.mem_cons_of_mem _ hy))⟩
    rw [h2xs (a, va) (List.mem_cons_self _ _)]; exact hh

theorem QInv_addr_live (s : Mem) (xs : List (Ptr × Ptr)) (hi : QInv s xs) :
    ∀ a ∈ xs.map Prod.fst, a ≠ NULL ∧ a < SIZE_RANGE ∧ ∃ nd, s.heap a = some (.node nd) := by
  intro a ha
  obtain ⟨x, hx, rfl⟩ := List.mem_map.mp ha
  obtain ⟨h0, nx, hh⟩ := Rep_live _ _ _ hi.rep x hx
  exact ⟨h0, hi.bound x hx, _, hh⟩

theorem fresh_not_mem (s : Mem) (xs : List (Ptr × Ptr)) (hi : QInv s xs) (m : Ptr)
    (hm : fresh s.heap m) : m ∉ xs.map Prod.fst := by
  intro hmem
  obtain ⟨_, _, nd, hnd⟩ := QInv_addr_live s xs hi m hmem
  rw [hm.2.2] at hnd; cases hnd

/-- On a queue that satisfies the invariant `queue_enqueue` with a fresh block
returns, appends the value, and touches only the new block and the nodes. -/
theorem queue_enqueue_spec (s : Mem) (xs : List (Ptr × Ptr)) (hi : QInv s xs)
    (v m : Ptr) (hm : fresh s.heap m) :
    ∃ s1, queue_enqueue s v m = .ok s1 ∧ QInv s1 (xs ++ [(m, v)]) ∧
      ∀ a, a ≠ m → a ∉ xs.map Prod.fst → s1.heap a = s.heap a := by
  have hnm := fresh_not_mem s xs hi m hm
  obtain ⟨hm0, hmb, hmn⟩ := hm
  have hnd : ((xs ++ [(m, v)]).map Prod.fst).Nodup := by
    rw [List.map_append, List.nodup_append]
    refine ⟨hi.nodup, by simp, ?_⟩
    intro a ha hb
    simp only [List.map_cons, List.map_nil, List.mem_singleton] at hb
    subst hb; exact hnm ha
  have hbd : ∀ x ∈ xs ++ [(m, v)], x.1 < SIZE_RANGE := by
    intro x hx
    rcases List.mem_append.mp hx with hx | hx
    · exact hi.bound x hx
    · simp only [List.mem_singleton] at hx; subst hx; exact hmb
  have hsz : (s.queue.size + 1) % SIZE_RANGE = (xs ++ [(m, v)]).length := by
    have hlive := QInv_addr_live s xs hi
    have := nodup_length_lt ((xs ++ [(m, v)]).map Prod.fst) SIZE_RANGE hnd (by
      intro a ha
      rw [List.map_append, List.mem_append] at ha
      rcases ha with ha | ha
      · exact ⟨(hlive a ha).1, (hlive a ha).2.1⟩
      · simp only [List.map_cons, List.map_nil, List.mem_singleton] at ha
        subst ha; exact ⟨hm0, hmb⟩)
    rcases this with hlt | hnil
    · rw [List.length_map] at hlt
      rw [hi.size_eq]
      simp only [List.length_append, List.length_singleton] at hlt ⊢
      exact Nat.mod_eq_of_lt hlt
    · simp at hnil
  rcases List.eq_nil_or_concat xs with hnil | ⟨ys, ⟨t, vt⟩, hcons⟩
  · subst hnil
    have hs0 : s.queue.size = 0 := by simpa using hi.size_eq
    refine ⟨_, by simp only [queue_enqueue, if_neg hm0, hs0, if_true]; rfl, ?_, ?_⟩
    · refine ⟨?_, ?_, ?_, hnd, hbd⟩
      · exact ⟨rfl, hm0, NULL, by simp [Heap.write], rfl⟩
      · simp [hs0]
      · simp
    · intro a ha _
      simp [Heap.write, ha]
  · rw [List.concat_eq_append] at hcons
    subst hcons
    have hs0 : s.queue.size ≠ 0 := by rw [hi.size_eq]; simp
    have htl : s.queue.tail = t := by rw [hi.tail_eq]; simp
    have hlast := Rep_last _ _ _ _ _ hi.rep
    have htm : t ≠ m := by
      intro h; rw [h, hmn] at hlast; cases hlast
    have hrd : (s.heap.write m (.node { value := v, next := NULL })) s.queue.tail
        = some (.node { value := vt, next := NULL }) := by
      simp [Heap.write, htl, htm, hlast]
    refine ⟨_, by simp only [queue_enqueue, if_neg hm0, if_neg hs0, hrd]; rfl, ?_, ?_⟩
    · refine ⟨?_, hsz, by simp, hnd, hbd⟩
      rw [List.append_assoc]
      refine Rep_snoc s.heap _ _ t vt m v ys hi.rep hm0 ?_ ?_ ?_
      · simp [Heap.write, htl, Ne.symm htm]
      · simp [Heap.write, htl]
      · intro x hx
        have hxm : x.1 ≠ m := by
          intro h; apply hnm; rw [← h]
          exact List.mem_map_of_mem _ (List.mem_append_left _ hx)
        have hxt : x.1 ≠ t := by
          intro h
          have := hi.nodup
          rw [List.map_append, List.nodup_append] at this
          exact this.2.2 (List.mem_map_of_mem _ hx) (by simp [h])
        simp [Heap.write, htl, hxm, hxt]
    · intro a ha hxs
      have hat : a ≠ t := by
        intro h; apply hxs; simp [h]
      simp [Heap.write, htl, ha, hat]

/-- On a queue that satisfies the invariant and holds a value `queue_dequeue`
returns the oldest value, unlinks its node and frees exactly that node. -/
theorem queue_dequeue_spec (s : Mem) (a v : Ptr) (xs : List (Ptr × Ptr))
    (hi : QInv s ((a, v) :: xs)) :
    ∃ s1, queue_dequeue s = .ok (v, s1) ∧ QInv s1 xs ∧ s1.heap = s.heap.free a := by
  obtain ⟨hp, ha0, nx, hh, hrest⟩ := hi.rep
  have hs0 : s.queue.size ≠ 0 := by rw [hi.size_eq]; simp
  have hnd := hi.nodup
  rw [List.map_cons, List.nodup_cons] at hnd
  have hrd : s.heap s.queue.head = some (.node { value := v, next := nx }) := by
    rw [hp]; exact hh
  refine ⟨_, by simp only [queue_dequeue, if_neg hs0, hrd]; rfl, ?_, by simp only [hp]⟩
  have hrest1 : Rep (s.heap.free s.queue.head) nx xs := by
    refine Rep_frame s.heap _ nx xs hrest ?_
    intro x hx
    have hna : a ∉ xs.map Prod.fst := hnd.1
    have : x.1 ≠ a := by
      intro h; apply hna; rw [← h]; exact List.mem_map_of_mem _ hx
    simp [Heap.free, hp, this]
  cases xs with
  | nil =>
    have hs1 : s.queue.size = 1 := by simpa using hi.size_eq
    refine ⟨?_, by simp [hs1], by simp [hs1], hnd.2, by simp⟩
    simp only [hs1, if_true]; rfl
  | cons y ys =>
    have hs1 : s.queue.size ≠ 1 := by rw [hi.size_eq]; simp
    refine ⟨?_, ?_, ?_, hnd.2, fun x hx => hi.bound x (List.mem_cons_of_mem _ hx)⟩
    · simp only [if_neg hs1]; exact hrest1
    · simp [hi.size_eq]
    · simp only [if_neg hs1]; rw [hi.tail_eq]; simp [List.getLast?_cons_cons]

theorem queue_init_QInv (h : Heap) (m : Ptr) (s : Mem) (hs : queue_init h m = .ok s) :
    QInv s [] := by
  unfold queue_init at hs
  split at hs
  · cases hs
  · cases hs
    exact ⟨rfl, rfl, rfl, List.nodup_nil, by simp⟩

theorem Reachable_QInv (s : Mem) (hs : Reachable s) : ∃ xs, QInv s xs := by
  induction hs with
  | init h m s hinit => exact ⟨[], queue_init_QInv h m s hinit⟩
  | enqueue s v m s1 _ hm he ih =>
    obtain ⟨xs, hi⟩ := ih
    obtain ⟨s2, he2, hi2, _⟩ := queue_enqueue_spec s xs hi v m hm
    rw [he] at he2; cases he2
    exact ⟨_, hi2⟩
  | dequeue s v s1 _ hpos hd ih =>
    obtain ⟨xs, hi⟩ := ih
    cases xs with
    | nil => have := hi.size_eq; simp at this; omega
    | cons x xs =>
      obtain ⟨a, w⟩ := x
      obtain ⟨s2, hd2, hi2, _⟩ := queue_dequeue_spec s a w xs hi
      rw [hd] at hd2; cases hd2
      exact ⟨_, hi2⟩

theorem linked_nodes_of_Rep (h : Heap) (p : Ptr) (xs : List (Ptr × Ptr)) (fuel : Nat)
    (hr : Rep h p xs) (hf : xs.length ≤ fuel) :
    linked_nodes h fuel p = some (xs.map Prod.fst) := by
  induction xs generalizing p fuel with
  | nil =>
    have hp : p = NULL := hr
    subst hp
    cases fuel <;> simp [linked_nodes]
  | cons x xs ih =>
    obtain ⟨a, v⟩ := x
    obtain ⟨hp, ha, nx, hh, hrest⟩ := hr
    subst hp
    cases fuel with
    | zero => simp at hf
    | succ fuel =>
      have := ih nx fuel hrest (by simpa using hf)
      simp [linked_nodes, ha, hh, this]

theorem run_ops_fifo (ops : List Op) (s : Mem) (xs : List (Ptr × Ptr)) (hi : QInv s xs)
    (hfresh : mallocs_fresh s ops) (hne : never_empty xs.length ops) :
    ∃ outs s1, run_ops s ops = .ok (outs, s1) ∧
      outs = (xs.map Prod.snd ++ enqueued ops).take (dequeues ops) ∧
      outs.length = dequeues ops := by
  induction ops generalizing s xs with
  | nil => exact ⟨[], s, rfl, by simp [dequeues], by simp [dequeues]⟩
  | cons op ops ih =>
    cases op with
    | enqueue v m =>
      obtain ⟨hm, hrest⟩ := hfresh
      obtain ⟨s1, he, hi1, _⟩ := queue_enqueue_spec s xs hi v m hm
      rw [he] at hrest
      have hne1 : never_empty (xs ++ [(m, v)]).length ops := by
        simpa [never_empty] using hne
      obtain ⟨outs, s2, hrun, houts, hlen⟩ := ih s1 (xs ++ [(m, v)]) hi1 hrest hne1
      refine ⟨outs, s2, by simp only [run_ops, he, hrun], ?_, by simpa [dequeues] using hlen⟩
      simpa [enqueued, dequeues] using houts
    | dequeue =>
      obtain ⟨hpos, hne1⟩ := hne
      cases xs with
      | nil => simp at hpos
      | cons x xs =>
        obtain ⟨a, v⟩ := x
        obtain ⟨s1, hd, hi1, _⟩ := queue_dequeue_spec s a v xs hi
        have hrest : mallocs_fresh s1 ops := by
          have := hfresh
          simp only [mallocs_fresh, hd] at this
          exact this
        obtain ⟨outs, s2, hrun, houts, hlen⟩ := ih s1 xs hi1 hrest (by simpa using hne1)
        refine ⟨v :: outs, s2, by simp only [run_ops, hd, hrun], ?_, by simp [dequeues, hlen]⟩
        simp [enqueued, dequeues, houts]

/-- C1. FIFO order: from `queue_init()`, along every sequence of
`queue_enqueue` and `queue_dequeue` calls of one thread in which each
dequeue is issued on a non-empty queue (and each `malloc` returns a fresh
block), the run returns, and the k-th dequeue returns the value passed to the
k-th enqueue: the dequeued values are the first `dequeues ops` enqueued
values, in order. -/
theorem queue_fifo (h : Heap) (m0 : Ptr) (s0 : Mem) (ops : List Op)
    (hinit : queue_init h m0 = .ok s0)
    (hfresh : mallocs_fresh s0 ops) (hne : never_empty 0 ops) :
    ∃ outs s1, run_ops s0 ops = .ok (outs, s1) ∧
      outs.length = dequeues ops ∧
      outs = (enqueued ops).take (dequeues ops) ∧
      ∀ k, k < dequeues ops → outs[k]? = (enqueued ops)[k]? := by
  obtain ⟨outs, s1, hrun, houts, hlen⟩ :=
    run_ops_fifo ops s0 [] (queue_init_QInv h m0 s0 hinit) hfresh hne
  simp only [List.map_nil, List.nil_append] at houts
  refine ⟨outs, s1, hrun, hlen, houts, ?_⟩
  intro k hk
  rw [houts, List.getElem?_take_of_lt hk]

/-- C2. Queue invariant: `queue_init()` returns a queue with `size` 0 and
`head` and `tail` `NULL`, and in every state reached from it by
`queue_enqueue` and `queue_dequeue` (a dequeue only on a non-empty queue) the
walk along `next` from `head` ends in `NULL` after exactly `size` nodes, `tail`
is the last node of that chain, and `size == 0` exactly when `head` and
`tail` are both `NULL`. -/
theorem queue_invariant :
    (∀ (h : Heap) (m : Ptr), m ≠ NULL →
      ∃ s, queue_init h m = .ok s ∧
        s.queue.size = 0 ∧ s.queue.head = NULL ∧ s.queue.tail = NULL) ∧
    (∀ s : Mem, Reachable s →
      ∃ l, linked_nodes s.heap s.queue.size s.queue.head = some l ∧
        l.length = s.queue.size ∧
        l.getLast? = (if s.queue.tail = NULL then none else some s.queue.tail) ∧
        (s.queue.size = 0 ↔ s.queue.head = NULL ∧ s.queue.tail = NULL)) := by
  constructor
  · intro h m hm
    exact ⟨{ heap := h, queue := { head := NULL, tail := NULL, size := 0 } },
      by simp only [queue_init, if_neg hm], rfl, rfl, rfl⟩
  · intro s hs
    obtain ⟨xs, hi⟩ := Reachable_QInv s hs
    refine ⟨xs.map Prod.fst, linked_nodes_of_Rep _ _ xs _ hi.rep (le_of_eq hi.size_eq.symm),
      by rw [List.length_map, hi.size_eq], ?_, ?_⟩
    · rcases List.eq_nil_or_concat xs with hnil | ⟨ys, ⟨t, vt⟩, hcons⟩
      · subst hnil
        have := hi.tail_eq
        simp at this
        simp [this]
      · rw [List.concat_eq_append] at hcons
        subst hcons
        have htl : s.queue.tail = t := by rw [hi.tail_eq]; simp
        have ht0 := (QInv_addr_live s _ hi t (by simp)).1
        simp [htl, ht0]
    · have hhd := Rep_head _ _ _ hi.rep
      cases xs with
      | nil =>
        have h1 := hi.size_eq
        have h2 := hi.tail_eq
        simp at h1 h2 hhd
        simp [h1, h2, hhd]
      | cons x xs =>
        obtain ⟨a, v⟩ := x
        have h1 := hi.size_eq
        have ha0 := (QInv_addr_live s _ hi a (by simp)).1
        simp at h1 hhd
        constructor
        · intro h0; omega
        · intro h0; exact absurd (hhd ▸ h0.1) ha0

/-- Witness of C1: two enqueues, a dequeue, an enqueue into the block the
dequeue freed, two dequeues. -/
theorem queue_fifo_witness :
    ∃ outs s1,
      run_ops { heap := Heap.empty, queue := { head := NULL, tail := NULL, size := 0 } }
        [.enqueue 10 16, .enqueue 20 32, .dequeue, .enqueue 30 16, .dequeue, .dequeue]
        = .ok (outs, s1) ∧
      outs.length
        = dequeues [.enqueue 10 16, .enqueue 20 32, .dequeue, .enqueue 30 16, .dequeue, .dequeue] ∧
      outs = (enqueued [.enqueue 10 16, .enqueue 20 32, .dequeue, .enqueue 30 16, .dequeue,
        .dequeue]).take
          (dequeues [.enqueue 10 16, .enqueue 20 32, .dequeue, .enqueue 30 16, .dequeue,
            .dequeue]) ∧
      ∀ k, k < dequeues [.enqueue 10 16, .enqueue 20 32, .dequeue, .enqueue 30 16, .dequeue,
          .dequeue] →
        outs[k]? = (enqueued [.enqueue 10 16, .enqueue 20 32, .dequeue, .enqueue 30 16,
          .dequeue, .dequeue])[k]? :=
  queue_fifo Heap.empty 8 _ _ (by rfl)
    (by simp [mallocs_fresh, fresh, queue_enqueue, queue_dequeue, Heap.write, Heap.free,
          Heap.empty, SIZE_RANGE])
    (by simp [never_empty])

/-- Witness of C2: the queue after `queue_init()` and one enqueue. -/
theorem queue_invariant_witness :
    (∃ s, queue_init Heap.empty 8 = .ok s ∧
        s.queue.size = 0 ∧ s.queue.head = NULL ∧ s.queue.tail = NULL) ∧
    (∃ l, linked_nodes mem_one.heap mem_one.queue.size mem_one.queue.head = some l ∧
        l.length = mem_one.queue.size ∧
        l.getLast? = (if mem_one.queue.tail = NULL then none else some mem_one.queue.tail) ∧
        (mem_one.queue.size = 0 ↔ mem_one.queue.head = NULL ∧ mem_one.queue.tail = NULL)) :=
  ⟨queue_invariant.1 Heap.empty 8 (by decide),
   queue_invariant.2 mem_one
    (Reachable.enqueue { heap := Heap.empty, queue := { head := NULL, tail := NULL, size := 0 } }
      10 16 mem_one (Reachable.init Heap.empty 8 _ rfl)
      (by simp [fresh, Heap.empty, SIZE_RANGE]) rfl)⟩

/-- C6. `queue_dequeue` never returns a value from an empty queue: a dequeue
completes only in a state with `size > 0`; on an empty queue the thread goes
to wait and stays there, and memory (heap, `head`, `tail`, `size`) is as it
was; and when another thread enqueues `v` on the empty queue, the waiting
thread is woken and its dequeue returns `v`. -/
theorem dequeue_blocks_until_enqueue :
    (∀ (s s1 : Mem) (v : Ptr), queue_dequeue s = .ok (v, s1) → 0 < s.queue.size) ∧
    (∀ (s s1 : Mem) (d : Dequeuer) (v : Ptr),
      dequeue_step s d = .ok (.returned v, s1) → d ≠ .returned v → 0 < s.queue.size) ∧
    (∀ s : Mem, s.queue.size = 0 →
      queue_dequeue s = .blocked ∧
      dequeue_step s .checking = .ok (.waiting, s) ∧
      dequeue_step s .waiting = .ok (.waiting, s)) ∧
    (∀ (s : Mem) (v m : Ptr), s.queue.size = 0 → m ≠ NULL →
      ∃ s1 s2, enqueue_step s v m .waiting = .ok (.checking, s1) ∧
        dequeue_step s1 .checking = .ok (.returned v, s2) ∧
        s2.queue = { head := NULL, tail := NULL, size := 0 }) := by
  have h1 : ∀ (s s1 : Mem) (v : Ptr), queue_dequeue s = .ok (v, s1) → 0 < s.queue.size := by
    intro s s1 v h
    unfold queue_dequeue at h
    split at h
    · cases h
    · omega
  refine ⟨h1, ?_, ?_, ?_⟩
  · intro s s1 d v h hd
    cases d with
    | checking =>
      simp only [dequeue_step] at h
      cases hq : queue_dequeue s with
      | ok r =>
        obtain ⟨w, s2⟩ := r
        exact h1 s s2 w hq
      | abort => rw [hq] at h; cases h
      | fault => rw [hq] at h; cases h
      | blocked => rw [hq] at h; cases h
      | out_of_fuel => rw [hq] at h; cases h
    | waiting => simp [dequeue_step] at h
    | returned w =>
      simp only [dequeue_step, Outcome.ok.injEq, Prod.mk.injEq, Dequeuer.returned.injEq] at h
      exact absurd (by rw [h.1]) hd
  · intro s hs
    have : queue_dequeue s = .blocked := by simp [queue_dequeue, hs]
    exact ⟨this, by simp [dequeue_step, this], rfl⟩
  · intro s v m hs hm
    have he : queue_enqueue s v m = .ok
        { heap := s.heap.write m (.node { value := v, next := NULL }),
          queue := { head := m, tail := m, size := 1 } } := by
      simp [queue_enqueue, hs, hm]
    refine ⟨{ heap := s.heap.write m (.node { value := v, next := NULL }),
              queue := { head := m, tail := m, size := 1 } },
            { heap := (s.heap.write m (.node { value := v, next := NULL })).free m,
              queue := { head := NULL, tail := NULL, size := 0 } },
            by simp only [enqueue_step, he, cond_signal], ?_, rfl⟩
    simp [dequeue_step, queue_dequeue, Heap.write]

/-- Witness of C6: the dequeue that completes on the queue holding one value. -/
theorem dequeue_blocks_until_enqueue_witness :
    0 < mem_one.queue.size ∧
    (∃ s1 s2, enqueue_step
        { heap := Heap.empty, queue := { head := NULL, tail := NULL, size := 0 } } 10 16 .waiting
          = .ok (.checking, s1) ∧
        dequeue_step s1 .checking = .ok (.returned 10, s2) ∧
        s2.queue = { head := NULL, tail := NULL, size := 0 }) :=
  ⟨dequeue_blocks_until_enqueue.1 mem_one
      { heap := mem_one.heap.free 16, queue := { head := NULL, tail := NULL, size := 0 } } 10 rfl,
   dequeue_blocks_until_enqueue.2.2.2
      { heap := Heap.empty, queue := { head := NULL, tail := NULL, size := 0 } } 10 16 rfl
      (by decide)⟩

/-! ### The thread pool, one thread at a time -/

theorem QInv_frame (s : Mem) (xs : List (Ptr × Ptr)) (hi : QInv s xs) (h1 : Heap)
    (hf : ∀ a ∈ xs.map Prod.fst, h1 a = s.heap a) :
    QInv { s with heap := h1 } xs :=
  ⟨Rep_frame s.heap h1 _ xs hi.rep (fun x hx => hf x.1 (List.mem_map_of_mem _ hx)),
   hi.size_eq, hi.tail_eq, hi.nodup, hi.bound⟩

theorem linked_values_of_Rep (h : Heap) (p : Ptr) (xs : List (Ptr × Ptr)) (fuel : Nat)
    (hr : Rep h p xs) (hf : xs.length ≤ fuel) :
    linked_values h fuel p = some (xs.map Prod.snd) := by
  induction xs generalizing p fuel with
  | nil =>
    have hp : p = NULL := hr
    subst hp
    cases fuel <;> simp [linked_values]
  | cons x xs ih =>
    obtain ⟨a, v⟩ := x
    obtain ⟨hp, ha, nx, hh, hrest⟩ := hr
    subst hp
    cases fuel with
    | zero => simp at hf
    | succ fuel =>
      have := ih nx fuel hrest (by simpa using hf)
      simp [linked_values, ha, hh, this]

theorem queue_values_of_QInv (s : Mem) (xs : List (Ptr × Ptr)) (hi : QInv s xs) :
    queue_values s = some (xs.map Prod.snd) :=
  linked_values_of_Rep _ _ xs _ hi.rep (le_of_eq hi.size_eq.symm)

theorem thread_pool_add_work_spec (s : Mem) (xs : List (Ptr × Ptr)) (hi : QInv s xs)
    (f : Nat) (aux mw mn : Ptr) (hmw : fresh s.heap mw)
    (hmn : fresh (s.heap.write mw (.work { function := f, aux := aux })) mn) :
    ∃ s1, thread_pool_add_work s f aux mw mn = .ok s1 ∧ QInv s1 (xs ++ [(mn, mw)]) ∧
      s1.heap mw = some (.work { function := f, aux := aux }) ∧
      ∀ a w, s.heap a = some (.work w) → s1.heap a = some (.work w) := by
  have hnotin := fresh_not_mem s xs hi mw hmw
  have hi1 : QInv { s with heap := s.heap.write mw (.work { function := f, aux := aux }) } xs := by
    refine QInv_frame s xs hi _ ?_
    intro a ha
    have : a ≠ mw := fun h => hnotin (h ▸ ha)
    simp [Heap.write, this]
  obtain ⟨s1, he, hi2, hfr⟩ := queue_enqueue_spec _ xs hi1 mw mn hmn
  have hlive := QInv_addr_live _ xs hi1
  have keep : ∀ a w, (s.heap.write mw (.work { function := f, aux := aux })) a = some (.work w) →
      s1.heap a = some (.work w) := by
    intro a w ha
    have h1 : a ≠ mn := by
      intro h; rw [h, hmn.2.2] at ha; cases ha
    have h2 : a ∉ xs.map Prod.fst := by
      intro h
      obtain ⟨_, _, nd, hnd⟩ := hlive a h
      simp only at hnd
      rw [hnd] at ha; cases ha
    rw [hfr a h1 h2]; exact ha
  refine ⟨s1, by simp only [thread_pool_add_work, if_neg hmw.1, he], hi2, ?_, ?_⟩
  · exact keep mw _ (by simp [Heap.write])
  · intro a w ha
    have : a ≠ mw := by
      intro h; rw [h, hmw.2.2] at ha; cases ha
    exact keep a w (by simp [Heap.write, this, ha])

theorem add_works_spec (after : Mem → Prop) (cs : List AddWork) (s : Mem)
    (xs : List (Ptr × Ptr)) (hi : QInv s xs) (hf : add_works_fresh after s cs) :
    ∃ s1, add_works s cs = .ok s1 ∧ after s1 ∧
      QInv s1 (xs ++ cs.map (fun c => (c.m_node, c.m_work))) ∧
      (∀ c ∈ cs, c.m_work ≠ NULL ∧
        s1.heap c.m_work = some (.work { function := c.function, aux := c.aux })) ∧
      ∀ a w, s.heap a = some (.work w) → s1.heap a = some (.work w) := by
  induction cs generalizing s xs with
  | nil => exact ⟨s, rfl, hf, by simpa using hi, by simp, fun _ _ h => h⟩
  | cons c cs ih =>
    obtain ⟨hmw, hmn, hrest⟩ := hf
    obtain ⟨s1, ha, hi1, hw, hkeep⟩ :=
      thread_pool_add_work_spec s xs hi c.function c.aux c.m_work c.m_node hmw hmn
    rw [ha] at hrest
    obtain ⟨s2, hrun, haft, hi2, hws, hkeep2⟩ := ih s1 _ hi1 hrest
    refine ⟨s2, by simp only [add_works, ha, hrun], haft, by simpa using hi2, ?_,
      fun a w h => hkeep2 a w (hkeep a w h)⟩
    intro d hd
    rcases List.mem_cons.mp hd with rfl | hd
    · exact ⟨hmw.1, hkeep2 _ _ hw⟩
    · exact hws d hd

theorem sentinel_loop_spec (ms : Nat → Ptr) (n : Nat) (i : Nat) (s : Mem)
    (xs : List (Ptr × Ptr)) (hi : QInv s xs) (hf : sentinel_loop_fresh ms n i s) :
    ∃ s1 ys, sentinel_loop ms n i s = .ok s1 ∧ QInv s1 (xs ++ ys) ∧
      ys.map Prod.snd = List.replicate n NULL ∧
      ∀ a w, s.heap a = some (.work w) → s1.heap a = some (.work w) := by
  induction n generalizing i s xs with
  | zero => exact ⟨s, [], rfl, by simpa using hi, rfl, fun _ _ h => h⟩
  | succ n ih =>
    obtain ⟨hm, hrest⟩ := hf
    obtain ⟨s1, he, hi1, hfr⟩ := queue_enqueue_spec s xs hi NULL (ms i) hm
    rw [he] at hrest
    obtain ⟨s2, ys, hrun, hi2, hys, hkeep⟩ := ih (i + 1) s1 _ hi1 hrest
    have hlive := QInv_addr_live s xs hi
    refine ⟨s2, (ms i, NULL) :: ys, by simp only [sentinel_loop, he, hrun],
      by simpa using hi2, by simp [hys, List.replicate_succ], ?_⟩
    intro a w ha
    apply hkeep
    have h1 : a ≠ ms i := by
      intro h; rw [h, hm.2.2] at ha; cases ha
    have h2 : a ∉ xs.map Prod.fst := by
      intro h
      obtain ⟨_, _, nd, hnd⟩ := hlive a h
      rw [hnd] at ha; cases ha
    rw [hfr a h1 h2]; exact ha

theorem thread_pool_init_QInv (h : Heap) (n : Nat) (mp mq mw : Ptr) (pool : thread_pool_t)
    (s : Mem) (hinit : thread_pool_init h n mp mq mw = .ok (pool, s)) :
    QInv s [] ∧ pool.num_workers = n := by
  unfold thread_pool_init at hinit
  cases hq : queue_init h mq with
  | ok s0 =>
    rw [hq] at hinit
    simp only at hinit
    split at hinit
    · cases hinit
    · split at hinit
      · cases hinit
      · cases hinit
        exact ⟨queue_init_QInv h mq _ hq, rfl⟩
  | abort => rw [hq] at hinit; cases hinit
  | fault => rw [hq] at hinit; cases hinit
  | blocked => rw [hq] at hinit; cases hinit
  | out_of_fuel => rw [hq] at hinit; cases hinit

/-- C4. Sentinel placement: for a pool of `N` workers, the `K` calls of
`thread_pool_add_work` followed by the enqueue loop of `thread_pool_finish`
return (each `malloc` returning a fresh block) and leave in the queue, oldest
first, the `K` work items in submission order, each a non-null pointer to a
block holding its own function and argument (also when the argument is
`NULL`), followed by exactly `N` sentinels (`NULL`). -/
theorem sentinel_placement (h : Heap) (N : Nat) (m_pool m_queue m_workers : Ptr)
    (pool : thread_pool_t) (s0 : Mem) (cs : List AddWork) (ms : Nat → Ptr)
    (hinit : thread_pool_init h N m_pool m_queue m_workers = .ok (pool, s0))
    (hf : add_works_fresh (sentinel_loop_fresh ms pool.num_workers 0) s0 cs) :
    ∃ s1 s2, add_works s0 cs = .ok s1 ∧ thread_pool_finish_enqueue pool ms s1 = .ok s2 ∧
      queue_values s2 = some (cs.map (fun c => c.m_work) ++ List.replicate N NULL) ∧
      ∀ c ∈ cs, c.m_work ≠ NULL ∧
        s2.heap c.m_work = some (.work { function := c.function, aux := c.aux }) := by
  obtain ⟨hi0, hN⟩ := thread_pool_init_QInv h N m_pool m_queue m_workers pool s0 hinit
  obtain ⟨s1, hrun, hs, hi1, hws, _⟩ := add_works_spec _ cs s0 [] hi0 hf
  obtain ⟨s2, ys, hrun2, hi2, hys, hkeep⟩ :=
    sentinel_loop_spec ms pool.num_workers 0 s1 _ hi1 hs
  refine ⟨s1, s2, hrun, hrun2, ?_, ?_⟩
  · rw [queue_values_of_QInv s2 _ hi2]
    simp [hys, hN, Function.comp_def]
  · intro c hc
    exact ⟨(hws c hc).1, hkeep _ _ (hws c hc).2⟩

/-- Witness of C4: a pool of two workers and two submissions. -/
theorem sentinel_placement_witness :
    ∃ s1 s2, add_works mem_init demo_calls = .ok s1 ∧
      thread_pool_finish_enqueue { num_workers := 2 } demo_ms s1 = .ok s2 ∧
      queue_values s2 = some (demo_calls.map (fun c => c.m_work) ++ List.replicate 2 NULL) ∧
      ∀ c ∈ demo_calls, c.m_work ≠ NULL ∧
        s2.heap c.m_work = some (.work { function := c.function, aux := c.aux }) :=
  sentinel_placement Heap.empty 2 8 24 40 { num_workers := 2 } mem_init demo_calls demo_ms
    (by rfl)
    (by simp [add_works_fresh, sentinel_loop_fresh, demo_calls, demo_ms, mem_init, fresh,
          thread_pool_add_work, queue_enqueue, Heap.write, Heap.empty, SIZE_RANGE])

theorem holds_work_frame (h h1 : Heap) (ps : List Ptr) (ws : List work_t)
    (hw : holds_work h ps ws) (hf : ∀ p ∈ ps, h1 p = h p) : holds_work h1 ps ws := by
  induction ps generalizing ws with
  | nil => cases ws <;> simp [holds_work] at hw ⊢
  | cons p ps ih =>
    cases ws with
    | nil => simp [holds_work] at hw
    | cons w ws =>
      obtain ⟨hp, hh, hrest⟩ := hw
      exact ⟨hp, by rw [hf p (List.mem_cons_self _ _)]; exact hh,
        ih ws hrest (fun q hq => hf q (List.mem_cons_of_mem _ hq))⟩

theorem holds_work_live (h : Heap) (ps : List Ptr) (ws : List work_t)
    (hw : holds_work h ps ws) : ∀ p ∈ ps, ∃ w, h p = some (.work w) := by
  induction ps generalizing ws with
  | nil => intro p hp; cases hp
  | cons q ps ih =>
    cases ws with
    | nil => simp [holds_work] at hw
    | cons w ws =>
      obtain ⟨_, hh, hrest⟩ := hw
      intro p hp
      rcases List.mem_cons.mp hp with rfl | hp
      · exact ⟨w, hh⟩
      · exact ih ws hrest p hp

theorem thread_tasks_spec (front : List (Ptr × Ptr)) (s : Mem) (rest : List (Ptr × Ptr))
    (a0 : Ptr) (ws : List work_t) (fuel : Nat)
    (hq : QInv s (front ++ (a0, NULL) :: rest))
    (hw : holds_work s.heap (front.map Prod.snd) ws)
    (hnd : (front.map Prod.snd).Nodup)
    (hfuel : front.length < fuel) :
    ∃ s1, thread_tasks fuel s
        = .ok (work_events (front.map Prod.snd) ws ++ [.dequeued NULL], s1) ∧
      QInv s1 rest := by
  induction front generalizing s ws fuel with
  | nil =>
    cases fuel with
    | zero => simp at hfuel
    | succ fuel =>
      obtain ⟨s1, hd, hi1, _⟩ := queue_dequeue_spec s a0 NULL rest hq
      refine ⟨s1, ?_, hi1⟩
      simp [thread_tasks, hd, work_events]
  | cons x front ih =>
    obtain ⟨a, p⟩ := x
    cases fuel with
    | zero => simp at hfuel
    | succ fuel =>
      cases ws with
      | nil => simp [holds_work] at hw
      | cons w ws =>
        obtain ⟨hp0, hpw, hwrest⟩ := hw
        obtain ⟨s1, hd, hi1, hheap⟩ := queue_dequeue_spec s a p _ hq
        have hlive := QInv_addr_live s _ hq
        have hpa : p ≠ a := by
          intro h
          obtain ⟨_, _, nd, hn⟩ := hlive a (by simp)
          rw [← h, hpw] at hn; cases hn
        have hs1p : s1.heap p = some (.work w) := by
          rw [hheap]; simp [Heap.free, hpa, hpw]
        have hlive1 := QInv_addr_live s1 _ hi1
        have hi2 : QInv { s1 with heap := s1.heap.free p } (front ++ (a0, NULL) :: rest) := by
          refine QInv_frame s1 _ hi1 _ ?_
          intro b hb
          have : b ≠ p := by
            intro h
            obtain ⟨_, _, nd, hn⟩ := hlive1 b hb
            rw [h, hs1p] at hn; cases hn
          simp [Heap.free, this]
        rw [List.map_cons, List.nodup_cons] at hnd
        have hw2 : holds_work ({ s1 with heap := s1.heap.free p } : Mem).heap
            (front.map Prod.snd) ws := by
          refine holds_work_frame s.heap _ _ ws hwrest ?_
          intro q hq1
          have hqp : q ≠ p := fun h => hnd.1 (h ▸ hq1)
          have hqa : q ≠ a := by
            intro h
            obtain ⟨w1, hw1⟩ := holds_work_live _ _ _ hwrest q hq1
            obtain ⟨_, _, nd, hn⟩ := hlive a (by simp)
            rw [← h, hw1] at hn; cases hn
          simp [Heap.free, hheap, hqp, hqa]
        obtain ⟨s3, hrun, hi3⟩ := ih _ ws fuel hi2 hw2 hnd.2 (by simpa using hfuel)
        refine ⟨s3, ?_, hi3⟩
        simp only [thread_tasks, hd, if_neg hp0, hs1p, hrun, List.map_cons, work_events,
          List.cons_append]

theorem calls_of_work_events (ps : List Ptr) (ws : List work_t) (tl : List Event)
    (hlen : ps.length = ws.length) :
    calls_of (work_events ps ws ++ tl) = ws.map (fun w => (w.function, w.aux)) ++ calls_of tl ∧
    dequeue_count (work_events ps ws ++ tl) = ps.length + dequeue_count tl := by
  induction ps generalizing ws with
  | nil =>
    cases ws with
    | nil => simp [work_events]
    | cons w ws => simp at hlen
  | cons p ps ih =>
    cases ws with
    | nil => simp at hlen
    | cons w ws =>
      obtain ⟨h1, h2⟩ := ih ws (by simpa using hlen)
      constructor
      · simp [work_events, calls_of, h1]
      · simp [work_events, dequeue_count, h2]; omega

theorem holds_work_length (h : Heap) (ps : List Ptr) (ws : List work_t)
    (hw : holds_work h ps ws) : ps.length = ws.length := by
  induction ps generalizing ws with
  | nil => cases ws <;> simp [holds_work] at hw ⊢
  | cons p ps ih =>
    cases ws with
    | nil => simp [holds_work] at hw
    | cons w ws => simpa using ih ws hw.2.2

/-- C5. Worker loop: on a queue (satisfying the queue invariant) whose
contents are pointers to `k` distinct live work items `w1..wk`, then a sentinel
`NULL`, then `rest`, one worker running `thread_tasks` (with fuel for more
than `k` iterations) returns; its events are dequeue `p1`, call
`w1.function(w1.aux)`, ..., dequeue `pk`, call `wk.function(wk.aux)`, dequeue
`NULL`: the calls in queue order, each once, `k + 1` dequeues; and the nodes
and values that followed the first sentinel are the queue it leaves. -/
theorem worker_loop (s : Mem) (front rest : List (Ptr × Ptr)) (a0 : Ptr) (ws : List work_t)
    (fuel : Nat)
    (hq : QInv s (front ++ (a0, NULL) :: rest))
    (hw : holds_work s.heap (front.map Prod.snd) ws)
    (hnd : (front.map Prod.snd).Nodup)
    (hfuel : front.length < fuel) :
    ∃ evs s1, thread_tasks fuel s = .ok (evs, s1) ∧
      evs = work_events (front.map Prod.snd) ws ++ [.dequeued NULL] ∧
      calls_of evs = ws.map (fun w => (w.function, w.aux)) ∧
      dequeue_count evs = ws.length + 1 ∧
      QInv s1 rest ∧ queue_values s1 = some (rest.map Prod.snd) := by
  obtain ⟨s1, hrun, hi1⟩ := thread_tasks_spec front s rest a0 ws fuel hq hw hnd hfuel
  have hlen := holds_work_length _ _ _ hw
  obtain ⟨h1, h2⟩ := calls_of_work_events (front.map Prod.snd) ws [.dequeued NULL] hlen
  refine ⟨_, s1, hrun, rfl, ?_, ?_, hi1, queue_values_of_QInv s1 rest hi1⟩
  · simpa [calls_of] using h1
  · rw [h2, hlen]; simp [dequeue_count]

/-- C9 (the code at a failed allocation). When `malloc` returns `NULL`,
`queue_enqueue` ends in the abort of its `assert`, but `queue_init`,
`thread_pool_init` and `thread_pool_add_work` go on and access memory through
the null pointer. -/
theorem alloc_failure_outcomes (h : Heap) (s : Mem) (v f aux n m m1 m2 : Ptr) :
    queue_enqueue s v NULL = .abort ∧
    queue_init h NULL = .fault ∧
    thread_pool_add_work s f aux NULL m = .fault ∧
    thread_pool_init h n m NULL m1 = .fault ∧
    thread_pool_init h n NULL m1 m2 = .fault ∧
    thread_pool_init h (n + 1) m m1 NULL = .fault := by
  refine ⟨rfl, rfl, rfl, rfl, ?_, ?_⟩
  · by_cases hm1 : m1 = NULL <;> simp [thread_pool_init, queue_init, hm1]
  · by_cases hm1 : m1 = NULL <;> by_cases hm : m = NULL <;>
      simp [thread_pool_init, queue_init, hm1, hm]

/-- Witness of C5: two work items, the sentinel, and one value behind it. -/
theorem worker_loop_witness :
    ∃ evs s1, thread_tasks 3 mem_work = .ok (evs, s1) ∧
      evs = work_events ([(128, 112), (160, 144)].map Prod.snd)
          [{ function := 1000, aux := NULL }, { function := 1001, aux := 7 }]
        ++ [.dequeued NULL] ∧
      calls_of evs = [({ function := 1000, aux := NULL } : work_t),
          { function := 1001, aux := 7 }].map (fun w => (w.function, w.aux)) ∧
      dequeue_count evs = [({ function := 1000, aux := NULL } : work_t),
          { function := 1001, aux := 7 }].length + 1 ∧
      QInv s1 [(224, 999)] ∧ queue_values s1 = some ([((224 : Ptr), (999 : Ptr))].map Prod.snd) :=
  worker_loop mem_work [(128, 112), (160, 144)] [(224, 999)] 208
    [{ function := 1000, aux := NULL }, { function := 1001, aux := 7 }] 3
    ⟨by simp [Rep, mem_work], rfl, rfl, by decide, by simp [SIZE_RANGE]⟩
    (by simp [holds_work, mem_work]) (by decide) (by decide)

theorem strlen_terminated (w : List Nat) (tl : List Nat) (hw : ∀ c ∈ w, c ≠ 0) :
    strlen (w ++ 0 :: tl) = some w.length := by
  induction w with
  | nil => simp [strlen]
  | cons c w ih =>
    have hc : c ≠ 0 := hw c (List.mem_cons_self _ _)
    have := ih (fun d hd => hw d (List.mem_cons_of_mem _ hd))
    simp [strlen, hc, this]

theorem store_middle (pre post : Buf) (x : Option Nat) (c : Nat) :
    Buf.store (pre ++ x :: post) pre.length c = some (pre ++ some c :: post) := by
  simp [Buf.store]

theorem strncpy_copy (n : Nat) (pre mid post : Buf) (src : List Nat) (sp : Nat)
    (hmid : mid.length = n) (hsrc : sp + n ≤ src.length)
    (hnz : ∀ c ∈ (src.drop sp).take n, c ≠ 0) :
    strncpy (pre ++ mid ++ post) pre.length src sp n
      = some (pre ++ ((src.drop sp).take n).map some ++ post) := by
  induction n generalizing pre mid sp with
  | zero =>
    have : mid = [] := List.length_eq_zero.mp hmid
    simp [strncpy, this]
  | succ n ih =>
    cases mid with
    | nil => simp at hmid
    | cons x mid =>
      have hlt : sp < src.length := by omega
      have hget : src[sp]? = some src[sp] := List.getElem?_eq_getElem hlt
      have hdrop : src.drop sp = src[sp] :: src.drop (sp + 1) := List.drop_eq_getElem_cons hlt
      have hmem : src[sp] ∈ List.take (n + 1) (List.drop sp src) := by
        rw [hdrop, List.take_succ_cons]; exact List.mem_cons_self _ _
      have hc : src[sp] ≠ 0 := hnz _ hmem
      have hst : Buf.store (pre ++ (x :: mid) ++ post) pre.length src[sp]
          = some ((pre ++ [some src[sp]]) ++ mid ++ post) := by
        have := store_middle pre (mid ++ post) x src[sp]
        simpa using this
      have hrec := ih (pre ++ [some src[sp]]) mid (sp + 1) (by simpa using hmid) (by omega)
        (by
          intro c hc1
          apply hnz
          rw [hdrop]
          simp only [List.take_succ_cons, List.mem_cons]
          exact Or.inr hc1)
      simp only [List.length_append, List.length_singleton] at hrec
      simp only [strncpy, hget, hst, if_neg hc, hrec, hdrop, List.take_succ_cons, List.map_cons]
      simp

theorem for_each_cons {α β : Type} (f : α → Outcome β) (x : α) (xs : List α) :
    for_each f (x :: xs)
      = (f x).bind fun y => (for_each f xs).bind fun ys => .ok (y :: ys) := rfl

theorem for_each_append {α β : Type} (f : α → Outcome β) (xs ys : List α) :
    for_each f (xs ++ ys)
      = (for_each f xs).bind fun a => (for_each f ys).bind fun b => .ok (a ++ b) := by
  induction xs with
  | nil =>
    show for_each f ys = _
    cases for_each f ys <;> rfl
  | cons x xs ih =>
    show for_each f (x :: (xs ++ ys)) = _
    rw [for_each_cons, ih, for_each_cons]
    cases f x <;> try rfl
    cases for_each f xs <;> try rfl
    cases for_each f ys <;> rfl

theorem for_each_map {α β γ : Type} (f : α → Outcome β) (g : γ → α) (xs : List γ) :
    for_each f (xs.map g) = for_each (fun x => f (g x)) xs := by
  induction xs with
  | nil => rfl
  | cons x xs ih => simp only [List.map_cons, for_each, ih]

theorem digit_loop_eq (crypt_r : List Nat → List Nat → Option (List Nat))
    (hashes : List (List Nat)) (beyond : List Nat) (pre post : Buf) (ds : List Nat)
    (x : Option Nat) :
    digit_loop crypt_r hashes beyond pre.length (pre ++ x :: post) ds
      = for_each (fun d => trial crypt_r hashes beyond (pre ++ some d :: post)) ds := by
  induction ds generalizing x with
  | nil => rfl
  | cons d ds ih =>
    simp only [digit_loop, store_middle, for_each, trial, ih]
    cases report_loop crypt_r (pre ++ some d :: post) beyond hashes <;> rfl

theorem candidate_map_some (w : List Nat) (i d : Nat) :
    (candidate w i d).map some = (w.take i).map some ++ some d :: (w.drop i).map some := by
  simp [candidate]

theorem position_loop_eq (crypt_r : List Nat → List Nat → Option (List Nat))
    (hashes : List (List Nat)) (beyond : Nat → List Nat) (w : List Nat)
    (hw : ∀ c ∈ w, c ≠ 0) (n i : Nat) (hi : i + n = w.length + 1) :
    position_loop crypt_r hashes beyond (w ++ [0]) w.length n i
      = for_each (fun k : Nat × Nat =>
          trial crypt_r hashes (beyond k.1) ((candidate w k.1 k.2).map some))
        (candidate_keys n i) := by
  induction n generalizing i with
  | zero => rfl
  | succ n ih =>
    have hil : i ≤ w.length := by omega
    have h1 : strncpy (List.replicate (w.length + 1) none) 0 (w ++ [0]) 0 i
        = some ((w.take i).map some ++ List.replicate (w.length + 1 - i) none) := by
      have := strncpy_copy i [] (List.replicate i none) (List.replicate (w.length + 1 - i) none)
        (w ++ [0]) 0 (by simp) (by simp; omega) (by
          intro c hc
          rw [List.drop_zero, List.take_append_of_le_length hil] at hc
          exact hw c (List.mem_of_mem_take hc))
      rw [List.drop_zero, List.take_append_of_le_length hil] at this
      have hrep : ([] ++ List.replicate i none ++ List.replicate (w.length + 1 - i) none : Buf)
          = List.replicate (w.length + 1) none := by
        rw [List.nil_append, ← List.replicate_add]
        congr 1; omega
      rw [hrep] at this
      simpa using this
    have h2 : strncpy ((w.take i).map some ++ List.replicate (w.length + 1 - i) none) (i + 1)
        (w ++ [0]) i (w.length - i)
        = some ((w.take i).map some ++ none :: (w.drop i).map some) := by
      have hd : List.take (w.length - i) (List.drop i (w ++ [0])) = w.drop i := by
        rw [List.drop_append_of_le_length hil, List.take_append_of_le_length (by simp)]
        apply List.take_of_length_le; simp
      have := strncpy_copy (w.length - i) ((w.take i).map some ++ [none])
        (List.replicate (w.length - i) none) [] (w ++ [0]) i (by simp) (by simp; omega) (by
          intro c hc
          rw [hd] at hc
          exact hw c (List.mem_of_mem_drop hc))
      rw [hd] at this
      have hlen : ((w.take i).map some ++ [none] : Buf).length = i + 1 := by
        simp [List.length_take, hil]
      rw [hlen] at this
      have hrep : List.replicate (w.length + 1 - i) (none : Option Nat)
          = none :: List.replicate (w.length - i) none := by
        rw [show w.length + 1 - i = (w.length - i) + 1 by omega, List.replicate_succ]
      rw [hrep]
      simpa using this
    have hpre : ((w.take i).map some : Buf).length = i := by simp [List.length_take, hil]
    have h3 := digit_loop_eq crypt_r hashes (beyond i) ((w.take i).map some)
      ((w.drop i).map some) digits none
    rw [hpre] at h3
    simp only [position_loop, h1, h2, h3, candidate_keys, for_each_append, for_each_map,
      candidate_map_some, ih (i + 1) (by omega)]
theorem for_each_ok {α β : Type} (g : α → β) (xs : List α) :
    for_each (fun x => Outcome.ok (g x)) xs = .ok (xs.map g) := by
  induction xs with
  | nil => rfl
  | cons x xs ih => rw [for_each_cons, ih]; rfl

theorem for_each_congr {α β : Type} (f g : α → Outcome β) (xs : List α)
    (h : ∀ x ∈ xs, f x = g x) : for_each f xs = for_each g xs := by
  induction xs with
  | nil => rfl
  | cons x xs ih =>
    rw [for_each_cons, for_each_cons, h x (List.mem_cons_self _ _),
      ih (fun y hy => h y (List.mem_cons_of_mem _ hy))]

theorem mem_digits (d : Nat) : d ∈ digits ↔ 48 ≤ d ∧ d ≤ 57 := by
  simp only [digits, List.mem_cons, List.mem_singleton, List.not_mem_nil, or_false]
  omega

theorem candidate_keys_length (n i : Nat) : (candidate_keys n i).length = 10 * n := by
  induction n generalizing i with
  | zero => rfl
  | succ n ih => simp [candidate_keys, ih, digits]; omega

theorem mem_candidate_keys (n i a d : Nat) :
    (a, d) ∈ candidate_keys n i ↔ i ≤ a ∧ a < i + n ∧ d ∈ digits := by
  induction n generalizing i with
  | zero => simp [candidate_keys]; omega
  | succ n ih =>
    simp only [candidate_keys, List.mem_append, List.mem_map, Prod.mk.injEq, ih]
    constructor
    · rintro (⟨e, he, rfl, rfl⟩ | ⟨h1, h2, h3⟩)
      · exact ⟨le_refl _, by omega, he⟩
      · exact ⟨by omega, by omega, h3⟩
    · rintro ⟨h1, h2, h3⟩
      by_cases h : a = i
      · exact Or.inl ⟨d, h3, h.symm, rfl⟩
      · exact Or.inr ⟨by omega, by omega, h3⟩

theorem candidate_keys_nodup (n i : Nat) : (candidate_keys n i).Nodup := by
  induction n generalizing i with
  | zero => exact List.nodup_nil
  | succ n ih =>
    simp only [candidate_keys]
    rw [List.nodup_append]
    refine ⟨?_, ih (i + 1), ?_⟩
    · refine List.Nodup.map ?_ (by decide)
      intro a b h; simpa using h
    · intro k hk hk2
      obtain ⟨a, d⟩ := k
      simp only [List.mem_map, Prod.mk.injEq] at hk
      obtain ⟨e, _, rfl, _⟩ := hk
      have := (mem_candidate_keys n (i + 1) i d).mp hk2
      omega

theorem try_variants_eq (crypt_r : List Nat → List Nat → Option (List Nat))
    (hashes : List (List Nat)) (beyond : Nat → List Nat) (w : List Nat)
    (hw : ∀ c ∈ w, c ≠ 0) :
    try_variants crypt_r hashes beyond (w ++ [0])
      = for_each (fun k : Nat × Nat =>
          trial crypt_r hashes (beyond k.1) ((candidate w k.1 k.2).map some))
        (candidate_keys (w.length + 1) 0) := by
  simp only [try_variants, strlen_terminated w [] hw]
  exact position_loop_eq crypt_r hashes beyond w hw (w.length + 1) 0 (by omega)

/-- C7. Candidate generation: for a dictionary word `w` of length `n`
(stored with its terminating NUL), `try_variants` forms exactly `10 * (n + 1)`
candidates, one for each insertion position `i` in `0..n` and each digit `d`
in `'0'..'9'`, in the order of its loops; the block `attempt` for `(i, d)`
holds the `n + 1` characters `w[0..i)`, `d`, `w[i..n)`, and the lines reported
for it are those of the loop over the hashes on that block. With no target
hash it returns exactly these blocks. -/
theorem candidate_generation (crypt_r : List Nat → List Nat → Option (List Nat))
    (hashes : List (List Nat)) (beyond : Nat → List Nat) (w : List Nat)
    (hw : ∀ c ∈ w, c ≠ 0) :
    try_variants crypt_r hashes beyond (w ++ [0])
      = for_each (fun k : Nat × Nat =>
          trial crypt_r hashes (beyond k.1) ((candidate w k.1 k.2).map some))
        (candidate_keys (w.length + 1) 0) ∧
    try_variants crypt_r [] beyond (w ++ [0])
      = .ok ((candidate_keys (w.length + 1) 0).map
          (fun k => ((candidate w k.1 k.2).map some, []))) ∧
    (candidate_keys (w.length + 1) 0).length = 10 * (w.length + 1) ∧
    (candidate_keys (w.length + 1) 0).Nodup ∧
    (∀ i d, (i, d) ∈ candidate_keys (w.length + 1) 0 ↔ i ≤ w.length ∧ 48 ≤ d ∧ d ≤ 57) ∧
    (∀ i d, i ≤ w.length →
      (candidate w i d).length = w.length + 1 ∧
      (candidate w i d).take i = w.take i ∧
      (candidate w i d)[i]? = some d ∧
      (candidate w i d).drop (i + 1) = w.drop i) := by
  refine ⟨try_variants_eq crypt_r hashes beyond w hw, ?_, candidate_keys_length _ _,
    candidate_keys_nodup _ _, ?_, ?_⟩
  · rw [try_variants_eq crypt_r [] beyond w hw]
    exact for_each_ok _ _
  · intro i d
    rw [mem_candidate_keys, mem_digits]
    omega
  · intro i d hi
    have hlen : (w.take i).length = i := by simp [List.length_take, hi]
    refine ⟨?_, ?_, ?_, ?_⟩
    · simp only [candidate, List.length_append, List.length_cons, List.length_drop, hlen]
      omega
    · simp only [candidate]
      rw [List.take_append_of_le_length (by omega)]
      simp [hlen]
    · simp only [candidate]
      rw [List.getElem?_append_right (by omega)]
      simp [hlen]
    · simp only [candidate]
      simp [List.drop_append_eq_append_drop, hlen, List.drop_eq_nil_of_le]

/-- Witness of C7: the word `ab`. -/
theorem candidate_generation_witness :
    try_variants demo_crypt [demo_hash ++ [0]] (fun _ => [0]) ([97, 98] ++ [0])
      = for_each (fun k : Nat × Nat =>
          trial demo_crypt [demo_hash ++ [0]] ((fun _ => [0]) k.1)
            ((candidate [97, 98] k.1 k.2).map some))
        (candidate_keys (([97, 98] : List Nat).length + 1) 0) ∧
    try_variants demo_crypt [] (fun _ => [0]) ([97, 98] ++ [0])
      = .ok ((candidate_keys (([97, 98] : List Nat).length + 1) 0).map
          (fun k => ((candidate [97, 98] k.1 k.2).map some, []))) ∧
    (candidate_keys (([97, 98] : List Nat).length + 1) 0).length
      = 10 * (([97, 98] : List Nat).length + 1) ∧
    (candidate_keys (([97, 98] : List Nat).length + 1) 0).Nodup ∧
    (∀ i d, (i, d) ∈ candidate_keys (([97, 98] : List Nat).length + 1) 0 ↔
      i ≤ ([97, 98] : List Nat).length ∧ 48 ≤ d ∧ d ≤ 57) ∧
    (∀ i d, i ≤ ([97, 98] : List Nat).length →
      (candidate [97, 98] i d).length = ([97, 98] : List Nat).length + 1 ∧
      (candidate [97, 98] i d).take i = ([97, 98] : List Nat).take i ∧
      (candidate [97, 98] i d)[i]? = some d ∧
      (candidate [97, 98] i d).drop (i + 1) = ([97, 98] : List Nat).drop i) :=
  candidate_generation demo_crypt [demo_hash ++ [0]] (fun _ => [0]) [97, 98] (by decide)

theorem read_string_map_some (l : List Nat) (beyond : List Nat) (hl : ∀ c ∈ l, c ≠ 0) :
    read_string (l.map some) beyond = (read_string [] beyond).map (l ++ ·) := by
  induction l with
  | nil =>
    show read_string [] beyond = _
    cases read_string [] beyond <;> simp
  | cons c l ih =>
    have hc : c ≠ 0 := hl c (List.mem_cons_self _ _)
    rw [List.map_cons]
    simp only [read_string, if_neg hc, ih (fun d hd => hl d (List.mem_cons_of_mem _ hd))]
    cases read_string [] beyond <;> simp

theorem candidate_nonzero (w : List Nat) (hw : ∀ c ∈ w, c ≠ 0) (i d : Nat) (hd : d ∈ digits) :
    ∀ c ∈ candidate w i d, c ≠ 0 := by
  intro c hc
  simp only [candidate, List.mem_append, List.mem_cons] at hc
  rcases hc with hc | rfl | hc
  · exact hw c (List.mem_of_mem_take hc)
  · have := (mem_digits c).mp hd; omega
  · exact hw c (List.mem_of_mem_drop hc)

theorem padded_eq_iff (hd l : List Nat) (hnz : ∀ x ∈ hd, x ≠ 0) (off : Nat) :
    (List.range hd.length).map (fun k => l.getD (off + k) 0) = hd
      ↔ (l.drop off).take hd.length = hd := by
  induction hd generalizing off with
  | nil => simp
  | cons x hd ih =>
    have hx : x ≠ 0 := hnz x (List.mem_cons_self _ _)
    have ih1 := ih (fun y hy => hnz y (List.mem_cons_of_mem _ hy)) (off + 1)
    rw [List.length_cons, List.range_succ_eq_map, List.map_cons, List.map_map]
    have hfun : ((fun k => l.getD (off + k) 0) ∘ Nat.succ) = fun k => l.getD (off + 1 + k) 0 := by
      funext k; simp only [Function.comp, Nat.succ_eq_add_one]; congr 1; omega
    rw [hfun, List.cons.injEq, ih1]
    by_cases hlt : off < l.length
    · rw [List.drop_eq_getElem_cons hlt, List.take_succ_cons, List.cons.injEq]
      simp [List.getD_eq_getElem?_getD, List.getElem?_eq_getElem hlt]
    · have hnil : l.drop off = [] := List.drop_eq_nil_of_le (by omega)
      have hget : l.getD (off + 0) 0 = 0 := by
        simp [List.getD_eq_getElem?_getD, List.getElem?_eq_none (show l.length ≤ off by omega)]
      rw [hnil]
      simp only [List.take_nil]
      constructor
      · rintro ⟨h1, _⟩
        rw [hget] at h1
        exact absurd h1.symm hx
      · intro h; cases h

theorem hashes_match_eq (crypt_r : List Nat → List Nat → Option (List Nat))
    (c h hashed : List Nat) (hlen : h.length = HASH_LENGTH) (hnz : ∀ x ∈ h, x ≠ 0)
    (hcrypt : crypt_r c (h.take SALT_LENGTH) = some hashed) :
    hashes_match crypt_r c (h ++ [0])
      = .ok (decide ((hashed.drop 20).take 86 = (h.drop 20).take 86)) := by
  have h1 : ¬ (h ++ [0]).length < SALT_LENGTH := by simp [hlen, SALT_LENGTH, HASH_LENGTH]
  have h2 : ¬ (h ++ [0]).length < HASH_LENGTH := by simp [hlen]
  have hsalt : ((h ++ [0]).take SALT_LENGTH).takeWhile (· ≠ 0) = h.take SALT_LENGTH := by
    rw [List.take_append_of_le_length (by rw [hlen]; decide)]
    rw [List.takeWhile_eq_self_iff]
    intro x hx
    simpa using hnz x (List.mem_of_mem_take hx)
  have hdrop : List.take (HASH_LENGTH - SALT_LENGTH) (List.drop SALT_LENGTH (h ++ [0]))
      = h.drop 20 := by
    rw [List.drop_append_of_le_length (by rw [hlen]; decide),
      List.take_append_of_le_length (by simp [hlen])]
    apply List.take_of_length_le; simp [hlen]
  have htake : (h.drop 20).take 86 = h.drop 20 := by
    apply List.take_of_length_le; simp [hlen]
  have hpad := padded_eq_iff (h.drop 20) hashed
    (fun x hx => hnz x (List.mem_of_mem_drop hx)) 20
  have hl86 : (h.drop 20).length = 86 := by simp [hlen, HASH_LENGTH]
  rw [hl86] at hpad
  simp only [hashes_match, if_neg h1, if_neg h2, hsalt, hcrypt, hdrop, htake]
  congr 1
  exact decide_eq_decide.mpr hpad

theorem report_loop_eq (crypt_r : List Nat → List Nat → Option (List Nat)) (attempt : Buf)
    (beyond c : List Nat) (hs : List (List Nat))
    (hread : read_string attempt beyond = some c)
    (hlen : ∀ h ∈ hs, h.length = HASH_LENGTH ∧ ∀ x ∈ h, x ≠ 0)
    (hcrypt : ∀ h ∈ hs, crypt_r c (h.take SALT_LENGTH) ≠ none) :
    report_loop crypt_r attempt beyond (hs.map (· ++ [0]))
      = .ok ((hs.filter (digest_equal crypt_r c)).map (fun _ => c)) := by
  induction hs with
  | nil => rfl
  | cons h hs ih =>
    have ih1 := ih (fun k hk => hlen k (List.mem_cons_of_mem _ hk))
      (fun k hk => hcrypt k (List.mem_cons_of_mem _ hk))
    obtain ⟨hl, hnz⟩ := hlen h (List.mem_cons_self _ _)
    have hne := hcrypt h (List.mem_cons_self _ _)
    cases hc : crypt_r c (h.take SALT_LENGTH) with
    | none => exact absurd hc hne
    | some hashed =>
      have hm := hashes_match_eq crypt_r c h hashed hl hnz hc
      have hde : digest_equal crypt_r c h
          = decide ((hashed.drop 20).take 86 = (h.drop 20).take 86) := by
        simp only [digest_equal]
        rw [show (20 : Nat) = SALT_LENGTH from rfl, hc]
      simp only [List.map_cons, report_loop, hread, hm, ih1, Outcome.bind, List.filter_cons, hde]
      split <;> simp

theorem read_string_candidate (w : List Nat) (hw : ∀ c ∈ w, c ≠ 0) (i d : Nat)
    (hd : d ∈ digits) (beyond : List Nat) :
    read_string ((candidate w i d).map some) beyond
      = if 0 ∈ beyond then some (candidate w i d ++ beyond.takeWhile (· ≠ 0)) else none := by
  rw [read_string_map_some _ _ (candidate_nonzero w hw i d hd)]
  simp only [read_string]
  split <;> simp

/-- What the code reports: `hashes_match` compares characters 20..105, the
loop over the hashes prints the string `c` read at `attempt` once for each
target hash whose digest equals that of `c`, and, when a NUL follows each block
in memory, the string read for the pair `(i, d)` is the candidate followed by
the bytes behind its block up to that NUL. -/
theorem try_variants_reports (crypt_r : List Nat → List Nat → Option (List Nat))
    (hs : List (List Nat)) (beyond : Nat → List Nat) (w : List Nat)
    (hw : ∀ c ∈ w, c ≠ 0)
    (hlen : ∀ h ∈ hs, h.length = HASH_LENGTH ∧ ∀ x ∈ h, x ≠ 0)
    (hbeyond : ∀ i, i ≤ w.length → 0 ∈ beyond i)
    (hcrypt : ∀ key, ∀ h ∈ hs, crypt_r key (h.take SALT_LENGTH) ≠ none) :
    (∀ c h hashed, h.length = HASH_LENGTH → (∀ x ∈ h, x ≠ 0) →
      crypt_r c (h.take SALT_LENGTH) = some hashed →
      hashes_match crypt_r c (h ++ [0])
        = .ok (decide ((hashed.drop 20).take 86 = (h.drop 20).take 86))) ∧
    (∀ (attempt : Buf) (bey c : List Nat), read_string attempt bey = some c →
      report_loop crypt_r attempt bey (hs.map (· ++ [0]))
        = .ok ((hs.filter (digest_equal crypt_r c)).map (fun _ => c))) ∧
    try_variants crypt_r (hs.map (· ++ [0])) beyond (w ++ [0])
      = .ok ((candidate_keys (w.length + 1) 0).map (fun k =>
          ((candidate w k.1 k.2).map some,
           (hs.filter (digest_equal crypt_r
              (candidate w k.1 k.2 ++ (beyond k.1).takeWhile (· ≠ 0)))).map
            (fun _ => candidate w k.1 k.2 ++ (beyond k.1).takeWhile (· ≠ 0))))) := by
  refine ⟨fun c h hashed h1 h2 h3 => hashes_match_eq crypt_r c h hashed h1 h2 h3,
    fun attempt bey c hread =>
      report_loop_eq crypt_r attempt bey c hs hread hlen (hcrypt c), ?_⟩
  rw [try_variants_eq crypt_r _ beyond w hw, ← for_each_ok]
  apply for_each_congr
  intro k hk
  obtain ⟨i, d⟩ := k
  obtain ⟨_, hi, hd⟩ := (mem_candidate_keys _ _ _ _).mp hk
  have hread := read_string_candidate w hw i d hd (beyond i)
  rw [if_pos (hbeyond i (by omega))] at hread
  simp only [trial]
  rw [report_loop_eq crypt_r _ _ _ hs hread hlen (hcrypt _)]
  rfl

/-- C8 (the code on a matching candidate). For the word `a` and one target
hash, under a `crypt_r` for which the candidate `a7` (position 1, digit `7`)
has the digest of the target: characters 20..105 of `crypt(a7, salt)` equal
those of the hash, so the claim has `a7` reported. The code hands `attempt`
to `crypt_r` without a terminating NUL: with the bytes `U U 0x05 NUL` behind
the block it hashes `a7UU` followed by the byte 5 and prints nothing; with no readable byte behind
the block it faults at the first call of `hashes_match`; only when the byte
behind the block happens to be NUL is `a7` printed. -/
theorem match_not_reported :
    candidate [97] 1 55 = [97, 55] ∧
    (1, 55) ∈ candidate_keys (([97] : List Nat).length + 1) 0 ∧
    digest_equal crypt_a7 [97, 55] demo_hash = true ∧
    hashes_match crypt_a7 [97, 55] (demo_hash ++ [0]) = .ok true ∧
    try_variants crypt_a7 [demo_hash ++ [0]] (fun _ => [85, 85, 5, 0]) [97, 0]
      = .ok (silent_trials [97]) ∧
    try_variants crypt_a7 [demo_hash ++ [0]] (fun _ => []) [97, 0] = .fault ∧
    (∃ trials, try_variants crypt_a7 [demo_hash ++ [0]] (fun _ => [0]) [97, 0] = .ok trials ∧
      ([some 97, some 55], [[97, 55]]) ∈ trials) := by
  refine ⟨rfl, by decide, by decide, by rfl, by rfl, by rfl, _, rfl, ?_⟩
  decide

theorem for_each_fault {α β : Type} (f : α → Outcome β) (x : α) (xs : List α)
    (h : f x = .fault) : for_each f (x :: xs) = .fault := by
  rw [for_each_cons, h]; rfl

/-- C10 (the code on a candidate). For every word `w` of length `n` and every
position and digit, the block `attempt` has `n + 1` bytes and none of them is
NUL: no terminating NUL lies inside the block, a reader of the string that may
not leave the block fails, any string read from it is at least `n + 1` long
(its NUL has index `n + 1` or more), and with one target hash or more
`try_variants` faults at its first call of `hashes_match`. -/
theorem candidate_not_terminated (crypt_r : List Nat → List Nat → Option (List Nat))
    (hash : List Nat) (hashes : List (List Nat)) (w : List Nat) (hw : ∀ c ∈ w, c ≠ 0) :
    (∀ i d, i ≤ w.length → d ∈ digits →
      ((candidate w i d).map some).length = w.length + 1 ∧
      some 0 ∉ (candidate w i d).map some ∧
      read_string ((candidate w i d).map some) [] = none ∧
      ∀ beyond c, read_string ((candidate w i d).map some) beyond = some c →
        w.length + 1 ≤ c.length) ∧
    try_variants crypt_r (hash :: hashes) (fun _ => []) (w ++ [0]) = .fault := by
  have hlen : ∀ i d, i ≤ w.length → (candidate w i d).length = w.length + 1 := by
    intro i d hi
    simp only [candidate, List.length_append, List.length_cons, List.length_drop,
      List.length_take]
    omega
  constructor
  · intro i d hi hd
    have hnz := candidate_nonzero w hw i d hd
    refine ⟨by rw [List.length_map, hlen i d hi], ?_, ?_, ?_⟩
    · intro hmem
      obtain ⟨c, hc, hc0⟩ := List.mem_map.mp hmem
      exact hnz c hc (Option.some.inj hc0)
    · rw [read_string_candidate w hw i d hd]; simp
    · intro beyond c hc
      rw [read_string_candidate w hw i d hd] at hc
      split at hc
      · cases hc
        rw [List.length_append, hlen i d hi]; omega
      · cases hc
  · rw [try_variants_eq crypt_r _ _ w hw]
    have hkeys : candidate_keys (w.length + 1) 0
        = (0, 48) :: ((digits.tail).map (fun d => (0, d)) ++ candidate_keys w.length 1) := rfl
    rw [hkeys]
    apply for_each_fault
    have hread := read_string_candidate w hw 0 48 (by decide) []
    simp only [trial, report_loop, hread]
    rfl

/-- Witness of C10: the word `a` with one target hash. -/
theorem candidate_not_terminated_witness :
    (∀ i d, i ≤ ([97] : List Nat).length → d ∈ digits →
      ((candidate [97] i d).map some).length = ([97] : List Nat).length + 1 ∧
      some 0 ∉ (candidate [97] i d).map some ∧
      read_string ((candidate [97] i d).map some) [] = none ∧
      ∀ beyond c, read_string ((candidate [97] i d).map some) beyond = some c →
        ([97] : List Nat).length + 1 ≤ c.length) ∧
    try_variants demo_crypt ((demo_hash ++ [0]) :: []) (fun _ => []) ([97] ++ [0]) = .fault :=
  candidate_not_terminated demo_crypt (demo_hash ++ [0]) [] [97] (by decide)

/-! ### The pool with its threads -/

theorem gather_set_same (f : Worker → List Ptr) (ws : List Worker) (i : Nat) (w x : Worker)
    (hi : ws[i]? = some w) (hf : f x = f w) : gather f (ws.set i x) = gather f ws := by
  induction ws generalizing i with
  | nil => simp at hi
  | cons v ws ih =>
    cases i with
    | zero =>
      simp only [List.getElem?_cons_zero, Option.some.injEq] at hi
      subst hi
      simp [gather, hf]
    | succ i =>
      simp only [List.getElem?_cons_succ] at hi
      simp [gather, ih i hi]

theorem gather_set_add (f : Worker → List Ptr) (ws : List Worker) (i : Nat) (w x : Worker)
    (hi : ws[i]? = some w) (hf : f w = []) :
    (gather f (ws.set i x)).Perm (f x ++ gather f ws) := by
  induction ws generalizing i with
  | nil => simp at hi
  | cons v ws ih =>
    cases i with
    | zero =>
      simp only [List.getElem?_cons_zero, Option.some.injEq] at hi
      subst hi
      simp [gather, hf]
    | succ i =>
      simp only [List.getElem?_cons_succ] at hi
      simp only [List.set_cons_succ, gather]
      refine ((ih i hi).append_left (f v)).trans ?_
      rw [← List.append_assoc, ← List.append_assoc]
      exact List.Perm.append_right _ List.perm_append_comm

theorem set_same {α : Type} (l : List α) (i : Nat) (a : α) (hi : l[i]? = some a) :
    l.set i a = l := by
  induction l generalizing i with
  | nil => rfl
  | cons b l ih =>
    cases i with
    | zero =>
      simp only [List.getElem?_cons_zero, Option.some.injEq] at hi
      subst hi; rfl
    | succ i =>
      simp only [List.getElem?_cons_succ] at hi
      simp [ih i hi]

theorem gather_set_remove (f : Worker → List Ptr) (ws : List Worker) (i : Nat) (w x : Worker)
    (hi : ws[i]? = some w) (hf : f x = []) :
    (gather f ws).Perm (f w ++ gather f (ws.set i x)) := by
  have hi2 : (ws.set i x)[i]? = some x := by
    rw [List.getElem?_set]
    have : i < ws.length := (List.getElem?_eq_some.mp hi).1
    simp [this]
  have := gather_set_add f (ws.set i x) i x w hi2 hf
  rw [List.set_set, set_same ws i w hi] at this
  exact this

theorem gather_mem (f : Worker → List Ptr) (ws : List Worker) (i : Nat) (w : Worker)
    (hi : ws[i]? = some w) : ∀ p ∈ f w, p ∈ gather f ws := by
  induction ws generalizing i with
  | nil => simp at hi
  | cons v ws ih =>
    intro p hp
    cases i with
    | zero =>
      simp only [List.getElem?_cons_zero, Option.some.injEq] at hi
      subst hi
      simp [gather, hp]
    | succ i =>
      simp only [List.getElem?_cons_succ] at hi
      simp [gather, ih i hi p hp]

theorem gather_todo_sub (ws : List Worker) : ∀ p ∈ gather wtodo ws, p ∈ gather wptr ws := by
  induction ws with
  | nil => simp [gather]
  | cons v ws ih =>
    intro p hp
    simp only [gather, List.mem_append] at hp ⊢
    rcases hp with hp | hp
    · left; cases v <;> simp_all [wtodo, wptr]
    · exact Or.inr (ih p hp)

theorem count_exited_set (ws : List Worker) (i : Nat) (w x : Worker)
    (hi : ws[i]? = some w) :
    (ws.set i x).count .exited + (if w = .exited then 1 else 0)
      = ws.count .exited + (if x = .exited then 1 else 0) := by
  induction ws generalizing i with
  | nil => simp at hi
  | cons v ws ih =>
    cases i with
    | zero =>
      simp only [List.getElem?_cons_zero, Option.some.injEq] at hi
      subst hi
      simp only [List.set_cons_zero, List.count_cons, beq_iff_eq]
      omega
    | succ i =>
      simp only [List.getElem?_cons_succ] at hi
      have := ih i hi
      simp only [List.set_cons_succ, List.count_cons, beq_iff_eq]
      omega

theorem signal_workers_cases (ws : List Worker) (wake : Nat) :
    (signal_workers ws wake = ws ∧ Worker.waiting ∉ ws) ∨
      ∃ k, ws[k]? = some .waiting ∧ signal_workers ws wake = ws.set k .idle := by
  unfold signal_workers
  split
  · next h => exact Or.inr ⟨wake, h, rfl⟩
  · by_cases hk : List.indexOf Worker.waiting ws < ws.length
    · right
      refine ⟨_, ?_, rfl⟩
      rw [List.getElem?_eq_getElem hk, List.getElem_indexOf hk]
    · left
      exact ⟨List.set_eq_of_length_le (by omega), fun h => hk (List.indexOf_lt_length.mpr h)⟩

theorem count_set_at (a : Worker) (ws : List Worker) (i : Nat) (w x : Worker)
    (hi : ws[i]? = some w) :
    (ws.set i x).count a + (if w = a then 1 else 0)
      = ws.count a + (if x = a then 1 else 0) := by
  induction ws generalizing i with
  | nil => simp at hi
  | cons v ws ih =>
    cases i with
    | zero =>
      simp only [List.getElem?_cons_zero, Option.some.injEq] at hi
      subst hi
      simp only [List.set_cons_zero, List.count_cons, beq_iff_eq]
      omega
    | succ i =>
      simp only [List.getElem?_cons_succ] at hi
      have := ih i hi
      simp only [List.set_cons_succ, List.count_cons, beq_iff_eq]
      omega

theorem Wake_set (ws : List Worker) (i : Nat) (w x : Worker) (n n1 : Nat)
    (hi : ws[i]? = some w) (hwake : Wake ws n) (hx : x ≠ .waiting)
    (hn : n1 + (if w = .idle then 1 else 0) ≤ n + (if x = .idle then 1 else 0)) :
    Wake (ws.set i x) n1 := by
  intro hmem
  have hmem1 : Worker.waiting ∈ ws := by
    rcases List.mem_or_eq_of_mem_set hmem with h | h
    · exact h
    · exact absurd h.symm hx
  have h1 := hwake hmem1
  have h2 := count_set_at .idle ws i w x hi
  omega

theorem Wake_signal (ws : List Worker) (wake n : Nat) (hwake : Wake ws n) :
    Wake (signal_workers ws wake) (n + 1) := by
  rcases signal_workers_cases ws wake with ⟨h, hno⟩ | ⟨k, hk, h⟩
  · rw [h]; intro hmem; exact absurd hmem hno
  · rw [h]
    exact Wake_set ws k .waiting .idle n (n + 1) hk hwake (by decide) (by simp)

theorem PInv_set_quiet (tasks : List (Nat × Ptr)) (c : Config) (xs : List (Ptr × Ptr))
    (qptrs : List Ptr) (z : Nat) (hinv : PInv tasks c xs qptrs z) (i : Nat) (w x : Worker)
    (hi : c.workers[i]? = some w) (hp : wptr x = wptr w) (ht : wtodo x = wtodo w)
    (hw : w ≠ .exited) (hx : x ≠ .exited) :
    PInv tasks { c with workers := c.workers.set i x } xs qptrs z := by
  have hcount : (c.workers.set i x).count .exited = c.workers.count .exited := by
    have := count_exited_set c.workers i w x hi
    simp only [if_neg hw, if_neg hx] at this
    omega
  refine ⟨hinv.qinv, hinv.vals, ?_, ?_, ?_, ?_, ?_, ?_, ?_⟩
  · show (c.workers.set i x).length = _
    rw [List.length_set]; exact hinv.nworkers
  · show (gather wptr (c.workers.set i x) ++ qptrs ++ mptr c.main).Nodup
    rw [gather_set_same wptr c.workers i w x hi hp]; exact hinv.nodup
  · show ∀ p ∈ gather wptr (c.workers.set i x) ++ qptrs ++ mptr c.main, _
    rw [gather_set_same wptr c.workers i w x hi hp]; exact hinv.live
  · show (c.calls ++ (gather wtodo (c.workers.set i x) ++ qptrs ++ mptr c.main).map
        (task_of c.mem.heap)).Perm _
    rw [gather_set_same wtodo c.workers i w x hi ht]; exact hinv.acct
  · show z + (c.workers.set i x).count .exited = _
    rw [hcount]; exact hinv.sent
  · show 0 < (c.workers.set i x).count .exited → _
    rw [hcount]; exact hinv.drained
  · have hm := hinv.main_ok
    unfold main_ok at hm ⊢
    show match c.main with
      | .adding k => k ≤ tasks.length
      | .enqueuing k _ => k < tasks.length
      | .finishing i => i ≤ c.pool.num_workers
      | .joining j => j ≤ c.pool.num_workers ∧
          ∀ i1, i1 < j → (c.workers.set i x)[i1]? = some .exited
      | .done => ∀ w ∈ c.workers.set i x, w = .exited
    cases hmain : c.main with
    | adding k => rw [hmain] at hm; exact hm
    | enqueuing k q => rw [hmain] at hm; exact hm
    | finishing k => rw [hmain] at hm; exact hm
    | joining j =>
      rw [hmain] at hm
      refine ⟨hm.1, ?_⟩
      intro i1 hi1
      have hne : i ≠ i1 := by
        intro h
        have := hm.2 i1 hi1
        rw [← h, hi] at this
        exact hw (Option.some.inj this)
      rw [List.getElem?_set_ne hne]
      exact hm.2 i1 hi1
    | done =>
      rw [hmain] at hm
      have hmem : w ∈ c.workers := List.mem_iff_getElem?.mpr ⟨i, hi⟩
      exact absurd (hm w hmem) hw

theorem PInv_signal (tasks : List (Nat × Ptr)) (c : Config) (xs : List (Ptr × Ptr))
    (qptrs : List Ptr) (z : Nat) (hinv : PInv tasks c xs qptrs z) (wake : Nat) :
    PInv tasks { c with workers := signal_workers c.workers wake } xs qptrs z := by
  rcases signal_workers_cases c.workers wake with ⟨h, _⟩ | ⟨k, hk, h⟩
  · rw [h]; exact hinv
  · rw [h]
    exact PInv_set_quiet tasks c xs qptrs z hinv k .waiting .idle hk rfl rfl
      (by decide) (by decide)

theorem task_of_map_congr (h h1 : Heap) (l : List Ptr) (hf : ∀ p ∈ l, h1 p = h p) :
    l.map (task_of h1) = l.map (task_of h) := by
  apply List.map_congr_left
  intro p hp
  simp only [task_of, hf p hp]

theorem PInv_add_alloc (tasks : List (Nat × Ptr)) (c : Config) (xs : List (Ptr × Ptr))
    (qptrs : List Ptr) (z : Nat) (hinv : PInv tasks c xs qptrs z) (k : Nat) (f : Nat)
    (aux m : Ptr) (hmain : c.main = .adding k) (htask : tasks[k]? = some (f, aux))
    (hm : fresh c.mem.heap m) :
    PInv tasks { c with
        mem := { c.mem with heap := c.mem.heap.write m (.work { function := f, aux := aux }) },
        main := .enqueuing k m } xs qptrs z := by
  have hnd := hinv.nodup
  have hlive := hinv.live
  have hacct := hinv.acct
  have hsent := hinv.sent
  have hmok := hinv.main_ok
  unfold main_ok at hmok
  unfold sentinels at hsent
  rw [hmain] at hnd hlive hacct hsent hmok
  simp only [mptr, List.append_nil, progress] at hnd hlive hacct hsent hmok
  have hklt : k < tasks.length := (List.getElem?_eq_some.mp htask).1
  have hne : ∀ p ∈ gather wptr c.workers ++ qptrs, p ≠ m := by
    intro p hp h
    obtain ⟨_, w, hw⟩ := hlive p hp
    rw [h, hm.2.2] at hw; cases hw
  have hsame : ∀ p ∈ gather wptr c.workers ++ qptrs,
      (c.mem.heap.write m (.work { function := f, aux := aux })) p = c.mem.heap p := by
    intro p hp
    simp [Heap.write, hne p hp]
  have htodo_sub : ∀ p ∈ gather wtodo c.workers ++ qptrs, p ∈ gather wptr c.workers ++ qptrs := by
    intro p hp
    rcases List.mem_append.mp hp with hp | hp
    · exact List.mem_append_left _ (gather_todo_sub _ p hp)
    · exact List.mem_append_right _ hp
  refine ⟨?_, hinv.vals, hinv.nworkers, ?_, ?_, ?_, ?_, hinv.drained, ?_⟩
  · refine QInv_frame c.mem xs hinv.qinv _ ?_
    intro a ha
    have : a ≠ m := fun h => fresh_not_mem c.mem xs hinv.qinv m hm (h ▸ ha)
    simp [Heap.write, this]
  · show (gather wptr c.workers ++ qptrs ++ [m]).Nodup
    rw [List.nodup_append]
    refine ⟨hnd, by simp, ?_⟩
    intro p hp hp2
    simp only [List.mem_singleton] at hp2
    exact hne p hp hp2
  · show ∀ p ∈ gather wptr c.workers ++ qptrs ++ [m], p ≠ NULL ∧
      ∃ w, (c.mem.heap.write m (.work { function := f, aux := aux })) p = some (.work w)
    intro p hp
    rcases List.mem_append.mp hp with hp | hp
    · rw [hsame p hp]; exact hlive p hp
    · simp only [List.mem_singleton] at hp
      subst hp
      exact ⟨hm.1, { function := f, aux := aux }, by simp [Heap.write]⟩
  · show (c.calls ++ (gather wtodo c.workers ++ qptrs ++ [m]).map
        (task_of (c.mem.heap.write m (.work { function := f, aux := aux })))).Perm
        (tasks.take (k + 1))
    rw [List.map_append, task_of_map_congr _ _ _ (fun p hp => hsame p (htodo_sub p hp)),
      List.take_succ, htask, ← List.append_assoc]
    refine List.Perm.append hacct ?_
    simp [task_of, Heap.write]
  · show z + c.workers.count .exited = 0
    exact hsent
  · show k < tasks.length
    exact hklt

theorem todo_sub_held (ws : List Worker) (qptrs mp : List Ptr) :
    ∀ p ∈ gather wtodo ws ++ qptrs ++ mp, p ∈ gather wptr ws ++ qptrs ++ mp := by
  intro p hp
  simp only [List.mem_append] at hp ⊢
  rcases hp with (hp | hp) | hp
  · exact Or.inl (Or.inl (gather_todo_sub _ p hp))
  · exact Or.inl (Or.inr hp)
  · exact Or.inr hp

theorem enqueue_held (tasks : List (Nat × Ptr)) (c : Config) (xs : List (Ptr × Ptr))
    (qptrs : List Ptr) (z : Nat) (hinv : PInv tasks c xs qptrs z) (v m : Ptr)
    (hm : fresh c.mem.heap m) :
    ∃ mem1, queue_enqueue c.mem v m = .ok mem1 ∧ QInv mem1 (xs ++ [(m, v)]) ∧
      ∀ p ∈ gather wptr c.workers ++ qptrs ++ mptr c.main, mem1.heap p = c.mem.heap p := by
  obtain ⟨mem1, he, hq, hfr⟩ := queue_enqueue_spec c.mem xs hinv.qinv v m hm
  refine ⟨mem1, he, hq, ?_⟩
  intro p hp
  obtain ⟨_, w, hw⟩ := hinv.live p hp
  apply hfr
  · intro h; rw [h, hm.2.2] at hw; cases hw
  · intro h
    obtain ⟨_, _, nd, hn⟩ := QInv_addr_live c.mem xs hinv.qinv p h
    rw [hn] at hw; cases hw

theorem PInv_enqueue_work (tasks : List (Nat × Ptr)) (c : Config) (xs : List (Ptr × Ptr))
    (qptrs : List Ptr) (z : Nat) (hinv : PInv tasks c xs qptrs z) (k : Nat) (p m : Ptr)
    (hmain : c.main = .enqueuing k p) (hm : fresh c.mem.heap m) :
    ∃ mem1, queue_enqueue c.mem p m = .ok mem1 ∧
      PInv tasks { c with mem := mem1, main := .adding (k + 1) }
        (xs ++ [(m, p)]) (qptrs ++ [p]) z := by
  obtain ⟨mem1, he, hq, hsame⟩ := enqueue_held tasks c xs qptrs z hinv p m hm
  have hnd := hinv.nodup
  have hlive := hinv.live
  have hacct := hinv.acct
  have hsent := hinv.sent
  have hmok := hinv.main_ok
  unfold main_ok at hmok
  unfold sentinels at hsent
  rw [hmain] at hnd hlive hacct hsent hmok hsame
  simp only [mptr, progress] at hnd hlive hacct hsent hmok hsame
  have hz : z = 0 := by omega
  have hcnt : c.workers.count .exited = 0 := by omega
  refine ⟨mem1, he, hq, ?_, hinv.nworkers, ?_, ?_, ?_, ?_, ?_, ?_⟩
  · rw [List.map_append, hinv.vals, hz]; simp
  · show (gather wptr c.workers ++ (qptrs ++ [p]) ++ []).Nodup
    rw [List.append_nil, ← List.append_assoc]; exact hnd
  · show ∀ q ∈ gather wptr c.workers ++ (qptrs ++ [p]) ++ [], q ≠ NULL ∧
      ∃ w, mem1.heap q = some (.work w)
    rw [List.append_nil, ← List.append_assoc]
    intro q hq1
    rw [hsame q hq1]; exact hlive q hq1
  · show (c.calls ++ (gather wtodo c.workers ++ (qptrs ++ [p]) ++ []).map
        (task_of mem1.heap)).Perm (tasks.take (k + 1))
    rw [List.append_nil, ← List.append_assoc,
      task_of_map_congr _ _ _ (fun q hq1 => hsame q (todo_sub_held _ _ _ q hq1))]
    exact hacct
  · show z + c.workers.count .exited = 0
    omega
  · show 0 < c.workers.count .exited → qptrs ++ [p] = []
    intro h; omega
  · show k + 1 ≤ tasks.length
    omega

theorem PInv_enqueue_sentinel (tasks : List (Nat × Ptr)) (c : Config) (xs : List (Ptr × Ptr))
    (qptrs : List Ptr) (z : Nat) (hinv : PInv tasks c xs qptrs z) (i : Nat) (m : Ptr)
    (hmain : c.main = .finishing i) (hi : i < c.pool.num_workers) (hm : fresh c.mem.heap m) :
    ∃ mem1, queue_enqueue c.mem NULL m = .ok mem1 ∧
      PInv tasks { c with mem := mem1, main := .finishing (i + 1) }
        (xs ++ [(m, NULL)]) qptrs (z + 1) := by
  obtain ⟨mem1, he, hq, hsame⟩ := enqueue_held tasks c xs qptrs z hinv NULL m hm
  have hnd := hinv.nodup
  have hlive := hinv.live
  have hacct := hinv.acct
  have hsent := hinv.sent
  unfold sentinels at hsent
  rw [hmain] at hnd hlive hacct hsent hsame
  simp only [mptr, progress] at hnd hlive hacct hsent hsame
  refine ⟨mem1, he, hq, ?_, hinv.nworkers, hnd, ?_, ?_, ?_, hinv.drained, ?_⟩
  · rw [List.map_append, hinv.vals, List.replicate_succ']; simp
  · intro q hq1
    show q ≠ NULL ∧ ∃ w, mem1.heap q = some (.work w)
    rw [hsame q hq1]; exact hlive q hq1
  · show (c.calls ++ (gather wtodo c.workers ++ qptrs ++ []).map
        (task_of mem1.heap)).Perm (tasks.take tasks.length)
    rw [task_of_map_congr _ _ _ (fun q hq1 => hsame q (todo_sub_held _ _ _ q hq1))]
    exact hacct
  · show z + 1 + c.workers.count .exited = i + 1
    omega
  · show i + 1 ≤ c.pool.num_workers
    omega

theorem PInv_main (tasks : List (Nat × Ptr)) (c : Config) (xs : List (Ptr × Ptr))
    (qptrs : List Ptr) (z : Nat) (hinv : PInv tasks c xs qptrs z) (main1 : Main)
    (hp : mptr main1 = mptr c.main) (hprog : progress tasks main1 = progress tasks c.main)
    (hsent : sentinels { c with main := main1 } = sentinels c)
    (hok : main_ok tasks { c with main := main1 }) :
    PInv tasks { c with main := main1 } xs qptrs z := by
  refine ⟨hinv.qinv, hinv.vals, hinv.nworkers, ?_, ?_, ?_, ?_, hinv.drained, hok⟩
  · show (gather wptr c.workers ++ qptrs ++ mptr main1).Nodup
    rw [hp]; exact hinv.nodup
  · show ∀ p ∈ gather wptr c.workers ++ qptrs ++ mptr main1, _
    rw [hp]; exact hinv.live
  · show (c.calls ++ (gather wtodo c.workers ++ qptrs ++ mptr main1).map
        (task_of c.mem.heap)).Perm (tasks.take (progress tasks main1))
    rw [hp, hprog]; exact hinv.acct
  · rw [hsent]; exact hinv.sent

theorem dequeue_held (tasks : List (Nat × Ptr)) (c : Config) (a v : Ptr)
    (xs : List (Ptr × Ptr)) (qptrs : List Ptr) (z : Nat)
    (hinv : PInv tasks c ((a, v) :: xs) qptrs z) :
    ∃ mem1, queue_dequeue c.mem = .ok (v, mem1) ∧ QInv mem1 xs ∧
      ∀ p ∈ gather wptr c.workers ++ qptrs ++ mptr c.main, mem1.heap p = c.mem.heap p := by
  obtain ⟨mem1, hd, hq, hh⟩ := queue_dequeue_spec c.mem a v xs hinv.qinv
  refine ⟨mem1, hd, hq, ?_⟩
  intro p hp
  obtain ⟨_, w, hw⟩ := hinv.live p hp
  have : p ≠ a := by
    intro h
    obtain ⟨_, _, nd, hn⟩ := QInv_addr_live c.mem _ hinv.qinv a (by simp)
    rw [← h, hw] at hn; cases hn
  rw [hh]; simp [Heap.free, this]

theorem PInv_take_work (tasks : List (Nat × Ptr)) (c : Config) (a p : Ptr)
    (xs : List (Ptr × Ptr)) (qptrs : List Ptr) (z : Nat)
    (hinv : PInv tasks c ((a, p) :: xs) (p :: qptrs) z) (i : Nat)
    (hi : c.workers[i]? = some .idle) :
    ∃ mem1, queue_dequeue c.mem = .ok (p, mem1) ∧ p ≠ NULL ∧
      PInv tasks { c with mem := mem1, workers := c.workers.set i (.running p) }
        xs qptrs z := by
  obtain ⟨mem1, hd, hq, hsame⟩ := dequeue_held tasks c a p xs (p :: qptrs) z hinv
  have hp0 : p ≠ NULL := (hinv.live p (by simp)).1
  have hperm1 : (gather wptr (c.workers.set i (.running p)) ++ qptrs ++ mptr c.main).Perm
      (gather wptr c.workers ++ (p :: qptrs) ++ mptr c.main) := by
    have h1 := gather_set_add wptr c.workers i .idle (.running p) hi rfl
    refine List.Perm.append_right _ ?_
    refine (List.Perm.append_right _ h1).trans ?_
    simp only [wptr, List.singleton_append, List.cons_append]
    exact List.perm_middle.symm
  have hperm2 : (gather wtodo (c.workers.set i (.running p)) ++ qptrs ++ mptr c.main).Perm
      (gather wtodo c.workers ++ (p :: qptrs) ++ mptr c.main) := by
    have h1 := gather_set_add wtodo c.workers i .idle (.running p) hi rfl
    refine List.Perm.append_right _ ?_
    refine (List.Perm.append_right _ h1).trans ?_
    simp only [wtodo, List.singleton_append, List.cons_append]
    exact List.perm_middle.symm
  have hcount : (c.workers.set i (.running p)).count .exited = c.workers.count .exited := by
    have := count_exited_set c.workers i .idle (.running p) hi
    simpa using this
  have hcnt0 : c.workers.count .exited = 0 := by
    by_contra h
    have := hinv.drained (by omega)
    cases this
  have hvals := hinv.vals
  simp only [List.map_cons, List.cons_append, List.cons.injEq, true_and] at hvals
  have hquiet := PInv_set_quiet tasks c _ _ z hinv i .idle .waiting hi rfl rfl
    (by decide) (by decide)
  refine ⟨mem1, hd, hp0, hq, hvals, ?_, ?_, ?_, ?_, ?_, ?_, ?_⟩
  · show (c.workers.set i (.running p)).length = _
    rw [List.length_set]; exact hinv.nworkers
  · exact (hperm1.nodup_iff).mpr hinv.nodup
  · intro q hq1
    have hq2 := hperm1.subset hq1
    show q ≠ NULL ∧ ∃ w, mem1.heap q = some (.work w)
    rw [hsame q hq2]; exact hinv.live q hq2
  · show (c.calls ++ (gather wtodo (c.workers.set i (.running p)) ++ qptrs ++ mptr c.main).map
        (task_of mem1.heap)).Perm _
    rw [task_of_map_congr _ _ _
      (fun q hq1 => hsame q (todo_sub_held _ _ _ q (hperm2.subset hq1)))]
    exact (List.Perm.append_left _ (hperm2.map _)).trans hinv.acct
  · show z + (c.workers.set i (.running p)).count .exited = _
    rw [hcount]; exact hinv.sent
  · show 0 < (c.workers.set i (.running p)).count .exited → _
    rw [hcount, hcnt0]; intro h; omega
  · have hm := hquiet.main_ok
    unfold main_ok at hm ⊢
    cases hmain : c.main with
    | adding k => simp only [hmain] at hm ⊢; exact hm
    | enqueuing k q => simp only [hmain] at hm ⊢; exact hm
    | finishing k => simp only [hmain] at hm ⊢; exact hm
    | joining j =>
      simp only [hmain] at hm ⊢
      refine ⟨hm.1, ?_⟩
      intro i1 hi1
      have := hm.2 i1 hi1
      rw [List.getElem?_set] at this ⊢
      split at this
      · split at this <;> cases this
      · next hne => rw [if_neg hne]; exact this
    | done =>
      simp only [hmain] at hm ⊢
      have : Worker.waiting ∈ c.workers.set i .waiting := by
        apply List.mem_iff_getElem?.mpr
        refine ⟨i, ?_⟩
        rw [List.getElem?_set]
        simp [(List.getElem?_eq_some.mp hi).1]
      exact absurd (hm _ this) (by decide)

theorem main_ok_set (tasks : List (Nat × Ptr)) (c : Config) (hm : main_ok tasks c) (i : Nat)
    (w x : Worker) (hi : c.workers[i]? = some w) (hw : w ≠ .exited) (mem1 : Mem)
    (calls1 : List (Nat × Ptr)) :
    main_ok tasks { c with mem := mem1, workers := c.workers.set i x, calls := calls1 } := by
  unfold main_ok at hm ⊢
  cases hmain : c.main with
  | adding k => simp only [hmain] at hm ⊢; exact hm
  | enqueuing k q => simp only [hmain] at hm ⊢; exact hm
  | finishing k => simp only [hmain] at hm ⊢; exact hm
  | joining j =>
    simp only [hmain] at hm ⊢
    refine ⟨hm.1, ?_⟩
    intro i1 hi1
    have hne : i ≠ i1 := by
      intro h
      have := hm.2 i1 hi1
      rw [← h, hi] at this
      exact hw (Option.some.inj this)
    rw [List.getElem?_set_ne hne]
    exact hm.2 i1 hi1
  | done =>
    simp only [hmain] at hm
    exact absurd (hm w (List.mem_iff_getElem?.mpr ⟨i, hi⟩)) hw

theorem PInv_take_sentinel (tasks : List (Nat × Ptr)) (c : Config) (a : Ptr)
    (xs : List (Ptr × Ptr)) (z : Nat)
    (hinv : PInv tasks c ((a, NULL) :: xs) [] (z + 1)) (i : Nat)
    (hi : c.workers[i]? = some .idle) :
    ∃ mem1, queue_dequeue c.mem = .ok (NULL, mem1) ∧
      PInv tasks { c with mem := mem1, workers := c.workers.set i .exited } xs [] z := by
  obtain ⟨mem1, hd, hq, hsame⟩ := dequeue_held tasks c a NULL xs [] (z + 1) hinv
  have hg1 := gather_set_same wptr c.workers i .idle .exited hi rfl
  have hg2 := gather_set_same wtodo c.workers i .idle .exited hi rfl
  have hcount : (c.workers.set i .exited).count .exited = c.workers.count .exited + 1 := by
    have := count_exited_set c.workers i .idle .exited hi
    simpa using this
  have hvals := hinv.vals
  simp only [List.map_cons, List.nil_append, List.replicate_succ, List.cons.injEq,
    true_and] at hvals
  refine ⟨mem1, hd, hq, by simpa using hvals, ?_, ?_, ?_, ?_, ?_, fun _ => rfl,
    main_ok_set tasks c hinv.main_ok i .idle .exited hi (by decide) mem1 c.calls⟩
  · show (c.workers.set i .exited).length = _
    rw [List.length_set]; exact hinv.nworkers
  · show (gather wptr (c.workers.set i .exited) ++ [] ++ mptr c.main).Nodup
    rw [hg1]; exact hinv.nodup
  · show ∀ q ∈ gather wptr (c.workers.set i .exited) ++ [] ++ mptr c.main, q ≠ NULL ∧
      ∃ w, mem1.heap q = some (.work w)
    rw [hg1]
    intro q hq1
    rw [hsame q hq1]; exact hinv.live q hq1
  · show (c.calls ++ (gather wtodo (c.workers.set i .exited) ++ [] ++ mptr c.main).map
        (task_of mem1.heap)).Perm _
    rw [hg2, task_of_map_congr _ _ _ (fun q hq1 => hsame q (todo_sub_held _ _ _ q hq1))]
    exact hinv.acct
  · show z + (c.workers.set i .exited).count .exited = sentinels c
    rw [hcount, ← hinv.sent]; omega

theorem PInv_call (tasks : List (Nat × Ptr)) (c : Config) (xs : List (Ptr × Ptr))
    (qptrs : List Ptr) (z : Nat) (hinv : PInv tasks c xs qptrs z) (i : Nat) (p : Ptr)
    (hi : c.workers[i]? = some (.running p)) :
    ∃ w, c.mem.heap p = some (.work w) ∧
      PInv tasks { c with calls := c.calls ++ [(w.function, w.aux)],
                          workers := c.workers.set i (.freeing p) } xs qptrs z := by
  have hmem : p ∈ gather wptr c.workers ++ qptrs ++ mptr c.main := by
    simp only [List.mem_append]
    exact Or.inl (Or.inl (gather_mem wptr c.workers i _ hi p (by simp [wptr])))
  obtain ⟨_, w, hw⟩ := hinv.live p hmem
  have hg1 := gather_set_same wptr c.workers i (.running p) (.freeing p) hi rfl
  have hg2 := gather_set_remove wtodo c.workers i (.running p) (.freeing p) hi rfl
  have hcount : (c.workers.set i (.freeing p)).count .exited = c.workers.count .exited := by
    have := count_exited_set c.workers i (.running p) (.freeing p) hi
    simpa using this
  refine ⟨w, hw, hinv.qinv, hinv.vals, ?_, ?_, ?_, ?_, ?_, ?_,
    main_ok_set tasks c hinv.main_ok i _ _ hi (by simp) c.mem _⟩
  · show (c.workers.set i (.freeing p)).length = _
    rw [List.length_set]; exact hinv.nworkers
  · show (gather wptr (c.workers.set i (.freeing p)) ++ qptrs ++ mptr c.main).Nodup
    rw [hg1]; exact hinv.nodup
  · show ∀ q ∈ gather wptr (c.workers.set i (.freeing p)) ++ qptrs ++ mptr c.main, _
    rw [hg1]; exact hinv.live
  · show (c.calls ++ [(w.function, w.aux)]
        ++ (gather wtodo (c.workers.set i (.freeing p)) ++ qptrs ++ mptr c.main).map
          (task_of c.mem.heap)).Perm _
    refine List.Perm.trans ?_ hinv.acct
    rw [List.append_assoc]
    refine List.Perm.append_left _ ?_
    have h3 : (gather wtodo c.workers ++ qptrs ++ mptr c.main).Perm
        (p :: (gather wtodo (c.workers.set i (.freeing p)) ++ qptrs ++ mptr c.main)) := by
      have := (hg2.append_right qptrs).append_right (mptr c.main)
      simpa [wtodo] using this
    refine List.Perm.trans ?_ (h3.map _).symm
    simp [task_of, hw]
  · show z + (c.workers.set i (.freeing p)).count .exited = _
    rw [hcount]; exact hinv.sent
  · show 0 < (c.workers.set i (.freeing p)).count .exited → _
    rw [hcount]; exact hinv.drained

theorem PInv_free (tasks : List (Nat × Ptr)) (c : Config) (xs : List (Ptr × Ptr))
    (qptrs : List Ptr) (z : Nat) (hinv : PInv tasks c xs qptrs z) (i : Nat) (p : Ptr)
    (hi : c.workers[i]? = some (.freeing p)) :
    (∃ b, c.mem.heap p = some b) ∧
      PInv tasks { c with mem := { c.mem with heap := c.mem.heap.free p },
                          workers := c.workers.set i .idle } xs qptrs z := by
  have hmem : p ∈ gather wptr c.workers ++ qptrs ++ mptr c.main := by
    simp only [List.mem_append]
    exact Or.inl (Or.inl (gather_mem wptr c.workers i _ hi p (by simp [wptr])))
  obtain ⟨_, w, hw⟩ := hinv.live p hmem
  have hg1 := gather_set_remove wptr c.workers i (.freeing p) .idle hi rfl
  have hg2 := gather_set_same wtodo c.workers i (.freeing p) .idle hi rfl
  have hperm : (gather wptr c.workers ++ qptrs ++ mptr c.main).Perm
      (p :: (gather wptr (c.workers.set i .idle) ++ qptrs ++ mptr c.main)) := by
    have := (hg1.append_right qptrs).append_right (mptr c.main)
    simpa [wptr] using this
  have hnd := (hperm.nodup_iff).mp hinv.nodup
  rw [List.nodup_cons] at hnd
  have hsame : ∀ q ∈ gather wptr (c.workers.set i .idle) ++ qptrs ++ mptr c.main,
      (c.mem.heap.free p) q = c.mem.heap q := by
    intro q hq
    have : q ≠ p := fun h => hnd.1 (h ▸ hq)
    simp [Heap.free, this]
  have hcount : (c.workers.set i .idle).count .exited = c.workers.count .exited := by
    have := count_exited_set c.workers i (.freeing p) .idle hi
    simpa using this
  refine ⟨⟨_, hw⟩, ?_, hinv.vals, ?_, hnd.2, ?_, ?_, ?_, ?_,
    main_ok_set tasks c hinv.main_ok i _ _ hi (by simp) _ c.calls⟩
  · refine QInv_frame c.mem xs hinv.qinv _ ?_
    intro a ha
    have : a ≠ p := by
      intro h
      obtain ⟨_, _, nd, hn⟩ := QInv_addr_live c.mem xs hinv.qinv a ha
      rw [h, hw] at hn; cases hn
    simp [Heap.free, this]
  · show (c.workers.set i .idle).length = _
    rw [List.length_set]; exact hinv.nworkers
  · intro q hq
    show q ≠ NULL ∧ ∃ w, (c.mem.heap.free p) q = some (.work w)
    rw [hsame q hq]
    exact hinv.live q (hperm.symm.subset (List.mem_cons_of_mem _ hq))
  · show (c.calls ++ (gather wtodo (c.workers.set i .idle) ++ qptrs ++ mptr c.main).map
        (task_of (c.mem.heap.free p))).Perm _
    rw [task_of_map_congr _ _ _ (fun q hq => hsame q (todo_sub_held _ _ _ q hq)), hg2]
    exact hinv.acct
  · show z + (c.workers.set i .idle).count .exited = _
    rw [hcount]; exact hinv.sent
  · show 0 < (c.workers.set i .idle).count .exited → _
    rw [hcount]; exact hinv.drained

theorem signal_gather (f : Worker → List Ptr) (hw : f .waiting = []) (hi : f .idle = [])
    (ws : List Worker) (wake : Nat) : gather f (signal_workers ws wake) = gather f ws := by
  rcases signal_workers_cases ws wake with ⟨h, _⟩ | ⟨k, hk, h⟩
  · rw [h]
  · rw [h]; exact gather_set_same f ws k .waiting .idle hk (by rw [hw, hi])

theorem signal_count_exited (ws : List Worker) (wake : Nat) :
    (signal_workers ws wake).count .exited = ws.count .exited := by
  rcases signal_workers_cases ws wake with ⟨h, _⟩ | ⟨k, hk, h⟩
  · rw [h]
  · rw [h]
    have := count_set_at .exited ws k .waiting .idle hk
    simpa using this

theorem PInv_bounds (tasks : List (Nat × Ptr)) (c : Config) (xs : List (Ptr × Ptr))
    (qptrs : List Ptr) (z : Nat) (hp : PInv tasks c xs qptrs z) :
    c.calls.length + ((gather wtodo c.workers).length + qptrs.length + (mptr c.main).length)
      = progress tasks c.main ∧
    progress tasks c.main ≤ tasks.length ∧
    c.workers.count .exited ≤ c.pool.num_workers ∧
    sentinels c ≤ c.pool.num_workers := by
  have hmok := hp.main_ok
  unfold main_ok at hmok
  have hprog : progress tasks c.main ≤ tasks.length := by
    cases hmain : c.main <;> rw [hmain] at hmok <;> simp only [progress] <;>
      first | exact hmok | omega
  have hlen := hp.acct.length_eq
  simp only [List.length_append, List.length_map, List.length_take] at hlen
  have hcount : c.workers.count .exited ≤ c.pool.num_workers := by
    rw [← hp.nworkers]; exact List.count_le_length _ _
  refine ⟨by omega, hprog, hcount, ?_⟩
  unfold sentinels
  cases hmain : c.main <;> rw [hmain] at hmok <;> simp only <;> first | exact hmok | omega

theorem main_step_Inv (tasks : List (Nat × Ptr)) (c : Config) (m : Ptr) (wake : Nat)
    (hinv : Inv tasks c) (hfr : allocates tasks c → fresh c.mem.heap m) :
    ∃ c1, main_step tasks c m wake = .ok c1 ∧ c1.pool = c.pool ∧ Inv tasks c1 ∧
      work_left tasks c1 + (if productive c (.main m wake) then 1 else 0)
        = work_left tasks c := by
  obtain ⟨xs, qptrs, z, hp, hwake⟩ := hinv
  have hmok := hp.main_ok
  obtain ⟨hb1, hb2, hb3, hb4⟩ := PInv_bounds tasks c xs qptrs z hp
  unfold main_ok at hmok
  unfold allocates at hfr
  unfold main_step
  cases hmain : c.main with
  | adding k =>
    rw [hmain] at hmok hfr
    simp only at hmok hfr ⊢
    cases htask : tasks[k]? with
    | none =>
      have hk : k = tasks.length := by
        have := List.getElem?_eq_none_iff.mp htask
        omega
      refine ⟨_, rfl, rfl, ⟨xs, qptrs, z,
        PInv_main tasks c xs qptrs z hp (.finishing 0) ?_ ?_ ?_ ?_, hwake⟩, ?_⟩
      · rw [hmain]; rfl
      · rw [hmain]; simp [progress, hk]
      · simp [sentinels, hmain]
      · simp [main_ok]
      · simp only [work_left, productive, hmain, main_left, if_true]
        omega
    | some t =>
      obtain ⟨f, aux⟩ := t
      have hklt := (List.getElem?_eq_some.mp htask).1
      have hm := hfr hklt
      simp only [if_neg hm.1]
      refine ⟨_, rfl, rfl, ⟨xs, qptrs, z,
        PInv_add_alloc tasks c xs qptrs z hp k f aux m hmain htask hm, hwake⟩, ?_⟩
      simp only [work_left, productive, hmain, main_left, if_true]
      omega
  | enqueuing k p =>
    rw [hmain] at hfr hmok
    simp only at hmok
    have hm := hfr trivial
    obtain ⟨mem1, he, hp1⟩ := PInv_enqueue_work tasks c xs qptrs z hp k p m hmain hm
    simp only [he]
    refine ⟨_, rfl, rfl, ⟨_, _, _, PInv_signal tasks _ _ _ _ hp1 wake, ?_⟩, ?_⟩
    · rw [List.length_append]
      exact Wake_signal c.workers wake xs.length hwake
    · simp only [work_left, productive, hmain, main_left, if_true,
        signal_gather wtodo rfl rfl, signal_gather wptr rfl rfl, signal_count_exited]
      omega
  | finishing i =>
    rw [hmain] at hmok hfr
    simp only at hmok hfr ⊢
    by_cases hi : i < c.pool.num_workers
    · obtain ⟨mem1, he, hp1⟩ :=
        PInv_enqueue_sentinel tasks c xs qptrs z hp i m hmain hi (hfr hi)
      simp only [if_pos hi, he]
      refine ⟨_, rfl, rfl, ⟨_, _, _, PInv_signal tasks _ _ _ _ hp1 wake, ?_⟩, ?_⟩
      · rw [List.length_append]
        exact Wake_signal c.workers wake xs.length hwake
      · simp only [work_left, productive, hmain, main_left, if_true,
          signal_gather wtodo rfl rfl, signal_gather wptr rfl rfl, signal_count_exited]
        omega
    · simp only [if_neg hi]
      refine ⟨_, rfl, rfl, ⟨xs, qptrs, z,
        PInv_main tasks c xs qptrs z hp (.joining 0) ?_ ?_ ?_ ?_, hwake⟩, ?_⟩
      · rw [hmain]; rfl
      · rw [hmain]; rfl
      · simp only [sentinels, hmain]; omega
      · simp [main_ok]
      · simp only [work_left, productive, hmain, main_left, if_true]
        omega
  | joining j =>
    rw [hmain] at hmok
    simp only at hmok ⊢
    by_cases hj : j < c.pool.num_workers
    · simp only [if_pos hj]
      by_cases hex : c.workers[j]? = some .exited
      · simp only [if_pos hex]
        refine ⟨_, rfl, rfl, ⟨xs, qptrs, z,
          PInv_main tasks c xs qptrs z hp (.joining (j + 1)) ?_ ?_ ?_ ?_, hwake⟩, ?_⟩
        · rw [hmain]; rfl
        · rw [hmain]; rfl
        · simp [sentinels, hmain]
        · simp only [main_ok]
          refine ⟨by omega, ?_⟩
          intro i1 hi1
          by_cases h : i1 = j
          · rw [h]; exact hex
          · exact hmok.2 i1 (by omega)
        · simp only [work_left, productive, hmain, main_left, hex]
          simp
          omega
      · simp only [if_neg hex]
        refine ⟨c, rfl, rfl, ⟨xs, qptrs, z, hp, hwake⟩, ?_⟩
        simp [productive, hmain, hj, hex]
    · simp only [if_neg hj]
      refine ⟨_, rfl, rfl, ⟨xs, qptrs, z,
        PInv_main tasks c xs qptrs z hp .done ?_ ?_ ?_ ?_, hwake⟩, ?_⟩
      · rw [hmain]; rfl
      · rw [hmain]; rfl
      · simp [sentinels, hmain]
      · simp only [main_ok]
        intro w hw
        obtain ⟨i1, hi1⟩ := List.mem_iff_getElem?.mp hw
        have hlt : i1 < c.workers.length := (List.getElem?_eq_some.mp hi1).1
        have := hmok.2 i1 (by rw [hp.nworkers] at hlt; omega)
        rw [hi1] at this
        exact Option.some.inj this
      · simp only [work_left, productive, hmain, main_left]
        simp [hj]
        omega
  | done =>
    refine ⟨c, rfl, rfl, ⟨xs, qptrs, z, hp, hwake⟩, ?_⟩
    simp [productive, hmain]

theorem worker_step_Inv (tasks : List (Nat × Ptr)) (c : Config) (i : Nat)
    (hinv : Inv tasks c) :
    ∃ c1, worker_step c i = .ok c1 ∧ c1.pool = c.pool ∧ Inv tasks c1 ∧
      work_left tasks c1 + (if productive c (.worker i) then 1 else 0)
        = work_left tasks c := by
  obtain ⟨xs, qptrs, z, hp, hwake⟩ := hinv
  obtain ⟨hb1, hb2, hb3, hb4⟩ := PInv_bounds tasks c xs qptrs z hp
  unfold worker_step
  cases hw : c.workers[i]? with
  | none =>
    refine ⟨c, rfl, rfl, ⟨xs, qptrs, z, hp, hwake⟩, ?_⟩
    simp [productive, hw]
  | some w =>
    cases w with
    | idle =>
      simp only
      have hs1 := gather_set_same wtodo c.workers i .idle
      have hs2 := gather_set_same wptr c.workers i .idle
      cases xs with
      | nil =>
        have hsz : c.mem.queue.size = 0 := by simpa using hp.qinv.size_eq
        have hb : queue_dequeue c.mem = .blocked := by simp [queue_dequeue, hsz]
        simp only [hb]
        refine ⟨_, rfl, rfl, ⟨[], qptrs, z,
          PInv_set_quiet tasks c _ _ z hp i .idle .waiting hw rfl rfl (by decide) (by decide),
          fun _ => Nat.zero_le _⟩, ?_⟩
        have hc := count_set_at .exited c.workers i .idle .waiting hw
        simp only [work_left, productive, hw, hsz, hs1 .waiting hw rfl, hs2 .waiting hw rfl]
        simp at hc ⊢
        omega
      | cons x xs =>
        obtain ⟨a, v⟩ := x
        have hvals := hp.vals
        have hsz : 0 < c.mem.queue.size := by rw [hp.qinv.size_eq]; simp
        cases qptrs with
        | nil =>
          cases z with
          | zero => simp at hvals
          | succ z =>
            simp only [List.map_cons, List.nil_append, List.replicate_succ,
              List.cons.injEq] at hvals
            obtain ⟨hv, _⟩ := hvals
            subst hv
            obtain ⟨mem1, hd, hp1⟩ := PInv_take_sentinel tasks c a xs z hp i hw
            simp only [hd, if_true]
            refine ⟨_, rfl, rfl, ⟨xs, [], z, hp1,
              Wake_set c.workers i .idle .exited _ _ hw hwake (by decide) (by simp)⟩, ?_⟩
            have hc := count_set_at .exited c.workers i .idle .exited hw
            have hsent := hp.sent
            simp only [work_left, productive, hw, hsz, hs1 .exited hw rfl, hs2 .exited hw rfl]
            simp at hc ⊢
            omega
        | cons p qptrs =>
          simp only [List.map_cons, List.cons_append, List.cons.injEq] at hvals
          obtain ⟨hv, _⟩ := hvals
          subst hv
          obtain ⟨mem1, hd, hp0, hp1⟩ := PInv_take_work tasks c a v xs qptrs z hp i hw
          simp only [hd, if_neg hp0]
          refine ⟨_, rfl, rfl, ⟨xs, qptrs, z, hp1,
            Wake_set c.workers i .idle (.running v) _ _ hw hwake (by simp) (by simp)⟩, ?_⟩
          have hc := count_set_at .exited c.workers i .idle (.running v) hw
          have h1 := (gather_set_add wtodo c.workers i .idle (.running v) hw rfl).length_eq
          have h2 := (gather_set_add wptr c.workers i .idle (.running v) hw rfl).length_eq
          simp only [work_left, productive, hw, hsz]
          simp [wtodo, wptr] at hc h1 h2 hb1 ⊢
          omega
    | waiting =>
      refine ⟨c, rfl, rfl, ⟨xs, qptrs, z, hp, hwake⟩, ?_⟩
      simp [productive, hw]
    | running p =>
      obtain ⟨w, hh, hp1⟩ := PInv_call tasks c xs qptrs z hp i p hw
      simp only [hh]
      refine ⟨_, rfl, rfl, ⟨xs, qptrs, z, hp1,
        Wake_set c.workers i (.running p) (.freeing p) _ _ hw hwake (by simp) (by simp)⟩, ?_⟩
      have hc := count_set_at .exited c.workers i (.running p) (.freeing p) hw
      have h1 := (gather_set_remove wtodo c.workers i (.running p) (.freeing p) hw rfl).length_eq
      have h2 := gather_set_same wptr c.workers i (.running p) (.freeing p) hw rfl
      simp only [work_left, productive, hw, h2]
      simp [wtodo] at hc h1 hb1 ⊢
      omega
    | freeing p =>
      obtain ⟨⟨b, hh⟩, hp1⟩ := PInv_free tasks c xs qptrs z hp i p hw
      simp only [hh]
      refine ⟨_, rfl, rfl, ⟨xs, qptrs, z, hp1,
        Wake_set c.workers i (.freeing p) .idle _ _ hw hwake (by decide) (by simp)⟩, ?_⟩
      have hc := count_set_at .exited c.workers i (.freeing p) .idle hw
      have h1 := gather_set_same wtodo c.workers i (.freeing p) .idle hw rfl
      have h2 := (gather_set_remove wptr c.workers i (.freeing p) .idle hw rfl).length_eq
      simp only [work_left, productive, hw, h1]
      simp [wptr] at hc h2 hb1 ⊢
      omega
    | exited =>
      refine ⟨c, rfl, rfl, ⟨xs, qptrs, z, hp, hwake⟩, ?_⟩
      simp [productive, hw]

theorem step_Inv (tasks : List (Nat × Ptr)) (c : Config) (e : Sched)
    (hinv : Inv tasks c) (hfr : step_fresh tasks c e) :
    ∃ c1, step tasks c e = .ok c1 ∧ c1.pool = c.pool ∧ Inv tasks c1 ∧
      work_left tasks c1 + (if productive c e then 1 else 0) = work_left tasks c := by
  cases e with
  | main m wake => exact main_step_Inv tasks c m wake hinv hfr
  | worker i => exact worker_step_Inv tasks c i hinv
  | wakeup i =>
    simp only [step]
    by_cases hw : c.workers[i]? = some .waiting
    · obtain ⟨xs, qptrs, z, hp, hwake⟩ := hinv
      simp only [if_pos hw]
      refine ⟨_, rfl, rfl, ⟨xs, qptrs, z,
        PInv_set_quiet tasks c _ _ z hp i .waiting .idle hw rfl rfl (by decide) (by decide),
        Wake_set c.workers i .waiting .idle _ _ hw hwake (by decide) (by simp)⟩, ?_⟩
      have hc := count_set_at .exited c.workers i .waiting .idle hw
      simp only [work_left, productive, gather_set_same wtodo c.workers i .waiting .idle hw rfl,
        gather_set_same wptr c.workers i .waiting .idle hw rfl]
      simp at hc ⊢
      omega
    · simp only [if_neg hw]
      exact ⟨c, rfl, rfl, hinv, by simp [productive]⟩

theorem run_Inv (tasks : List (Nat × Ptr)) (sched : List Sched) (c : Config)
    (hinv : Inv tasks c) (hfr : sched_fresh tasks c sched) :
    ∃ c1, run tasks c sched = .ok c1 ∧ c1.pool = c.pool ∧ Inv tasks c1 ∧
      work_left tasks c1 + productive_steps tasks c sched = work_left tasks c := by
  induction sched generalizing c with
  | nil => exact ⟨c, rfl, rfl, hinv, rfl⟩
  | cons e es ih =>
    obtain ⟨h1, h2⟩ := hfr
    have hsf : step_fresh tasks c e := by
      cases e <;> exact h1
    obtain ⟨c1, hs, hpool1, hinv1, hw1⟩ := step_Inv tasks c e hinv hsf
    rw [hs] at h2
    obtain ⟨c2, hr, hpool2, hinv2, hw2⟩ := ih c1 hinv1 h2
    refine ⟨c2, by simp only [run, hs, hr], by rw [hpool2, hpool1], hinv2, ?_⟩
    simp only [productive_steps, hs]
    omega

theorem gather_replicate_idle (f : Worker → List Ptr) (hf : f .idle = []) (n : Nat) :
    gather f (List.replicate n .idle) = [] := by
  induction n with
  | zero => rfl
  | succ n ih => simp [List.replicate_succ, gather, hf, ih]

theorem init_config_Inv (tasks : List (Nat × Ptr)) (h : Heap) (n : Nat) (mp mq mw : Ptr)
    (pool : thread_pool_t) (s0 : Mem)
    (hinit : thread_pool_init h n mp mq mw = .ok (pool, s0)) :
    Inv tasks (init_config pool s0) := by
  obtain ⟨hq, _⟩ := thread_pool_init_QInv h n mp mq mw pool s0 hinit
  have hc : (List.replicate pool.num_workers Worker.idle).count .exited = 0 := by
    rw [List.count_eq_zero]
    intro hmem
    have := List.eq_of_mem_replicate hmem
    cases this
  refine ⟨[], [], 0, ⟨hq, rfl, by simp [init_config], ?_, ?_, ?_, ?_, ?_, ?_⟩,
    fun _ => Nat.zero_le _⟩
  · simp [init_config, gather_replicate_idle wptr rfl, mptr]
  · simp [init_config, gather_replicate_idle wptr rfl, mptr]
  · simp [init_config, gather_replicate_idle wtodo rfl, mptr, progress]
  · simp only [init_config, sentinels, hc]
  · intro _; rfl
  · simp [main_ok, init_config]

theorem gather_all_exited (f : Worker → List Ptr) (hf : f .exited = []) (ws : List Worker)
    (hall : ∀ w ∈ ws, w = .exited) : gather f ws = [] := by
  induction ws with
  | nil => rfl
  | cons w ws ih =>
    have hw : w = .exited := hall w (List.mem_cons_self _ _)
    subst hw
    simp [gather, hf, ih (fun v hv => hall v (List.mem_cons_of_mem _ hv))]

theorem count_all_exited (ws : List Worker) (hall : ∀ w ∈ ws, w = .exited) :
    ws.count .exited = ws.length := by
  induction ws with
  | nil => rfl
  | cons w ws ih =>
    have hw : w = .exited := hall w (List.mem_cons_self _ _)
    subst hw
    simp [ih (fun v hv => hall v (List.mem_cons_of_mem _ hv))]

theorem Inv_calls (tasks : List (Nat × Ptr)) (c : Config) (hinv : Inv tasks c) :
    c.calls.Subperm tasks ∧
    (c.main = .done → 1 ≤ c.pool.num_workers →
      c.calls.Perm tasks ∧ ∀ w ∈ c.workers, w = .exited) := by
  obtain ⟨xs, qptrs, z, hp, _⟩ := hinv
  constructor
  · have h1 : c.calls.Subperm (tasks.take (progress tasks c.main)) :=
      (List.sublist_append_left _ _).subperm.trans hp.acct.subperm
    exact h1.trans (List.take_sublist _ _).subperm
  · intro hdone hW
    have hmok := hp.main_ok
    unfold main_ok at hmok
    rw [hdone] at hmok
    simp only at hmok
    have hcount := count_all_exited c.workers hmok
    have hq : qptrs = [] := hp.drained (by rw [hcount, hp.nworkers]; omega)
    have hacct := hp.acct
    rw [hdone, hq, gather_all_exited wtodo rfl c.workers hmok] at hacct
    simp only [mptr, List.append_nil, List.map_nil, progress, List.take_length] at hacct
    exact ⟨hacct, hmok⟩

theorem Inv_not_deadlocked (tasks : List (Nat × Ptr)) (c : Config) (hinv : Inv tasks c) :
    ¬ deadlocked c := by
  rintro ⟨⟨j, hmain, hj, hwj⟩, hall⟩
  obtain ⟨xs, qptrs, z, hp, hwake⟩ := hinv
  have hlen : j < c.workers.length := by rw [hp.nworkers]; exact hj
  have hget : c.workers[j]? = some c.workers[j] := List.getElem?_eq_getElem hlen
  have hmemj : c.workers[j] ∈ c.workers := List.getElem_mem hlen
  have hwaitj : c.workers[j] = .waiting := by
    rcases hall _ hmemj with h | h
    · exact h
    · rw [hget, h] at hwj; exact absurd rfl hwj
  have hidle : c.workers.count .idle = 0 := by
    rw [List.count_eq_zero]
    intro hmem
    rcases hall _ hmem with h | h <;> cases h
  have hxs : xs = [] := by
    have := hwake (hwaitj ▸ hmemj)
    rw [hidle] at this
    exact List.length_eq_zero.mp (by omega)
  have hz : z = 0 := by
    have := hp.vals
    rw [hxs] at this
    simp only [List.map_nil] at this
    have h2 := congrArg List.length this
    simp only [List.length_nil, List.length_append, List.length_replicate] at h2
    omega
  have hsent := hp.sent
  simp only [sentinels, hmain, hz, Nat.zero_add] at hsent
  have hallex : ∀ w ∈ c.workers, Worker.exited = w := by
    apply List.count_eq_length.mp
    rw [hsent, hp.nworkers]
  have := hallex _ hmemj
  rw [hwaitj] at this
  cases this

theorem work_left_init (tasks : List (Nat × Ptr)) (pool : thread_pool_t) (s0 : Mem) :
    work_left tasks (init_config pool s0) = 5 * tasks.length + 3 * pool.num_workers + 3 := by
  have hc : (List.replicate pool.num_workers Worker.idle).count .exited = 0 := by
    rw [List.count_eq_zero]
    intro hmem
    cases List.eq_of_mem_replicate hmem
  simp only [work_left, init_config, main_left, gather_replicate_idle wtodo rfl,
    gather_replicate_idle wptr rfl, hc, List.length_nil]
  omega

theorem work_left_zero_iff (tasks : List (Nat × Ptr)) (c : Config) (hinv : Inv tasks c)
    (hW : 1 ≤ c.pool.num_workers) : c.main = .done ↔ work_left tasks c = 0 := by
  constructor
  · intro hdone
    obtain ⟨hperm, hall⟩ := (Inv_calls tasks c hinv).2 hdone hW
    obtain ⟨xs, qptrs, z, hp, _⟩ := hinv
    have hcount := count_all_exited c.workers hall
    simp only [work_left, hdone, main_left, gather_all_exited wtodo rfl c.workers hall,
      gather_all_exited wptr rfl c.workers hall, hcount, hp.nworkers, hperm.length_eq,
      List.length_nil]
    omega
  · intro h0
    unfold work_left at h0
    cases hmain : c.main with
    | done => rfl
    | adding k => rw [hmain] at h0; simp only [main_left] at h0; omega
    | enqueuing k p => rw [hmain] at h0; simp only [main_left] at h0; omega
    | finishing k => rw [hmain] at h0; simp only [main_left] at h0; omega
    | joining k => rw [hmain] at h0; simp only [main_left] at h0; omega

theorem Inv_progress (tasks : List (Nat × Ptr)) (c : Config) (hinv : Inv tasks c)
    (hmain : c.main ≠ .done) :
    (∀ m wake, productive c (.main m wake) = true) ∨
      ∃ i, productive c (.worker i) = true := by
  obtain ⟨xs, qptrs, z, hp, hwake⟩ := hinv
  cases hm : c.main with
  | done => exact absurd hm hmain
  | adding k => exact Or.inl (fun m wake => by simp [productive, hm])
  | enqueuing k p => exact Or.inl (fun m wake => by simp [productive, hm])
  | finishing k => exact Or.inl (fun m wake => by simp [productive, hm])
  | joining j =>
    by_cases hblock : j < c.pool.num_workers ∧ c.workers[j]? ≠ some .exited
    · right
      obtain ⟨hj, hwj⟩ := hblock
      have hlen : j < c.workers.length := by rw [hp.nworkers]; exact hj
      have hget : c.workers[j]? = some c.workers[j] := List.getElem?_eq_getElem hlen
      have hmemj : c.workers[j] ∈ c.workers := List.getElem_mem hlen
      have hxs : xs ≠ [] := by
        intro hnil
        have hz : z = 0 := by
          have := hp.vals
          rw [hnil] at this
          have h2 := congrArg List.length this
          simp only [List.map_nil, List.length_nil, List.length_append,
            List.length_replicate] at h2
          omega
        have hsent := hp.sent
        simp only [sentinels, hm, hz, Nat.zero_add] at hsent
        have hallex : ∀ w ∈ c.workers, Worker.exited = w := by
          apply List.count_eq_length.mp
          rw [hsent, hp.nworkers]
        rw [hget, ← hallex _ hmemj] at hwj
        exact hwj rfl
      have hsz : 0 < c.mem.queue.size := by
        rw [hp.qinv.size_eq]
        exact List.length_pos.mpr hxs
      cases hw : c.workers[j] with
      | idle => exact ⟨j, by simp [productive, hget, hw, hsz]⟩
      | running p => exact ⟨j, by simp [productive, hget, hw]⟩
      | freeing p => exact ⟨j, by simp [productive, hget, hw]⟩
      | exited => rw [hget, hw] at hwj; exact absurd rfl hwj
      | waiting =>
        have h1 := hwake (hw ▸ hmemj)
        have hpos : 0 < c.workers.count .idle := by
          have := List.length_pos.mpr hxs
          omega
        obtain ⟨i, hi⟩ := List.mem_iff_getElem?.mp (List.count_pos_iff.mp hpos)
        exact ⟨i, by simp [productive, hi, hsz]⟩
    · exact Or.inl (fun m wake => by simp only [productive, hm]; exact decide_eq_true hblock)

theorem queue_enqueue_none (s s1 : Mem) (v m a : Ptr) (he : queue_enqueue s v m = .ok s1)
    (ha : s.heap a = none) (ham : a ≠ m) : s1.heap a = none := by
  unfold queue_enqueue at he
  split at he
  · cases he
  · split at he
    · cases he
      simp [Heap.write, ham, ha]
    · simp only at he
      split at he
      · next t ht =>
        cases he
        have hat : a ≠ s.queue.tail := by
          intro h
          rw [← h] at ht
          simp [Heap.write, ham, ha] at ht
        simp [Heap.write, ham, ha, hat]
      · cases he

theorem queue_dequeue_none (s s1 : Mem) (v a : Ptr) (hd : queue_dequeue s = .ok (v, s1))
    (ha : s.heap a = none) : s1.heap a = none := by
  unfold queue_dequeue at hd
  split at hd
  · cases hd
  · split at hd
    · cases hd
      simp only [Heap.free]
      split <;> simp [ha]
    · cases hd

theorem step_none (tasks : List (Nat × Ptr)) (c c1 : Config) (e : Sched) (a : Ptr)
    (hs : step tasks c e = .ok c1) (ha : c.mem.heap a = none)
    (hm : ∀ m wake, e = .main m wake → a ≠ m) : c1.mem.heap a = none := by
  cases e with
  | main m wake =>
    have ham := hm m wake rfl
    simp only [step, main_step] at hs
    split at hs
    · split at hs
      · split at hs
        · cases hs
        · cases hs
          simp [Heap.write, ham, ha]
      · cases hs; exact ha
    · next k work _ =>
      cases he : queue_enqueue c.mem work m with
      | ok mem1 =>
        rw [he] at hs
        cases hs
        exact queue_enqueue_none c.mem mem1 work m a he ha ham
      | abort => rw [he] at hs; cases hs
      | fault => rw [he] at hs; cases hs
      | blocked => rw [he] at hs; cases hs
      | out_of_fuel => rw [he] at hs; cases hs
    · split at hs
      · cases he : queue_enqueue c.mem NULL m with
        | ok mem1 =>
          rw [he] at hs
          cases hs
          exact queue_enqueue_none c.mem mem1 NULL m a he ha ham
        | abort => rw [he] at hs; cases hs
        | fault => rw [he] at hs; cases hs
        | blocked => rw [he] at hs; cases hs
        | out_of_fuel => rw [he] at hs; cases hs
      · cases hs; exact ha
    · split at hs
      · split at hs <;> (cases hs; exact ha)
      · cases hs; exact ha
    · cases hs; exact ha
  | worker i =>
    simp only [step, worker_step] at hs
    split at hs
    · cases hd : queue_dequeue c.mem with
      | ok r =>
        obtain ⟨v, mem1⟩ := r
        rw [hd] at hs
        simp only at hs
        split at hs <;> (cases hs; exact queue_dequeue_none c.mem mem1 v a hd ha)
      | blocked => rw [hd] at hs; cases hs; exact ha
      | abort => rw [hd] at hs; cases hs
      | fault => rw [hd] at hs; cases hs
      | out_of_fuel => rw [hd] at hs; cases hs
    · split at hs
      · cases hs; exact ha
      · cases hs
    · split at hs
      · cases hs
        simp only [Heap.free]
        split <;> simp [ha]
      · cases hs
    · cases hs; exact ha
  | wakeup i =>
    simp only [step] at hs
    split at hs <;> (cases hs; exact ha)

theorem can_finish (tasks : List (Nat × Ptr)) (n : Nat) (c : Config) (b : Nat)
    (hinv : Inv tasks c) (hn : work_left tasks c = n) (hroom : room_from c.mem.heap b)
    (hb : 0 < b) (hbn : b + n ≤ 2 ^ 64) (hW : 1 ≤ c.pool.num_workers) :
    ∃ sched c1, sched_fresh tasks c sched ∧ run tasks c sched = .ok c1 ∧
      c1.main = .done ∧ c1.calls.Perm tasks := by
  induction n generalizing c b with
  | zero =>
    have hdone := (work_left_zero_iff tasks c hinv hW).mpr hn
    exact ⟨[], c, trivial, rfl, hdone, ((Inv_calls tasks c hinv).2 hdone hW).1⟩
  | succ n ih =>
    have hnd : c.main ≠ .done := by
      intro hdone
      have := (work_left_zero_iff tasks c hinv hW).mp hdone
      omega
    have hfreshb : fresh c.mem.heap b :=
      ⟨fun h => by rw [h] at hb; exact absurd hb (by decide),
       show b < 2 ^ 64 by omega, hroom b (le_refl b)⟩
    have key : ∃ e, productive c e = true ∧ step_fresh tasks c e ∧
        ∀ m wake, e = .main m wake → m = b := by
      rcases Inv_progress tasks c hinv hnd with h | ⟨i, h⟩
      · refine ⟨.main b 0, h b 0, fun _ => hfreshb, ?_⟩
        intro m wake he
        cases he; rfl
      · exact ⟨.worker i, h, trivial, fun m wake he => by cases he⟩
    obtain ⟨e, hprod, hsf, hmb⟩ := key
    obtain ⟨c1, hs, hpool, hinv1, hw1⟩ := step_Inv tasks c e hinv hsf
    rw [hprod] at hw1
    simp only [if_true] at hw1
    have hroom1 : room_from c1.mem.heap (b + 1) := by
      intro a ha
      have hba : b + 1 ≤ (a : Nat) := ha
      refine step_none tasks c c1 e a hs (hroom a (show b ≤ (a : Nat) by omega)) ?_
      intro m wake he
      rw [hmb m wake he]
      intro hab
      rw [hab] at hba
      omega
    obtain ⟨sched, c2, hf2, hr2, hd2, hp2⟩ :=
      ih c1 (b + 1) hinv1 (by omega) hroom1 (by omega) (by omega) (by rw [hpool]; exact hW)
    refine ⟨e :: sched, c2, ?_, by simp only [run, hs, hr2], hd2, hp2⟩
    refine ⟨?_, by rw [hs]; exact hf2⟩
    cases e <;> exact hsf

/-- C3. For every pool created by `thread_pool_init(W)` with `W >= 1`, every
list of `K` tasks submitted by `thread_pool_add_work` before
`thread_pool_finish` is called, and every interleaving of the main thread and
the `W` workers (with any spurious wakeups, each `malloc` returning a fresh
block): the run is defined (no abort, no fault); at every moment no task was
called more often than it was submitted, and the threads are never all
blocked; when `thread_pool_finish` has returned every worker has exited and the
calls made are exactly the submitted tasks, each once with its own argument.
The tasks are in fact executed: every productive step brings the return of
`thread_pool_finish` one step closer, it is reached after exactly
`5 * K + 3 * W + 3` productive steps of any schedule, as long as it is not
reached some thread has a productive step, and (while `malloc` has room) the
run can be continued to the return of `thread_pool_finish` with all tasks
called. -/
theorem pool_runs_each_task_once (h : Heap) (W : Nat) (m_pool m_queue m_workers : Ptr)
    (pool : thread_pool_t) (s0 : Mem) (tasks : List (Nat × Ptr)) (sched : List Sched)
    (hW : 1 ≤ W)
    (hinit : thread_pool_init h W m_pool m_queue m_workers = .ok (pool, s0))
    (hfresh : sched_fresh tasks (init_config pool s0) sched) :
    ∃ c, run tasks (init_config pool s0) sched = .ok c ∧
      c.calls.Subperm tasks ∧
      ¬ deadlocked c ∧
      (c.main = .done → c.calls.Perm tasks ∧ ∀ w ∈ c.workers, w = .exited) ∧
      work_left tasks c + productive_steps tasks (init_config pool s0) sched
        = 5 * tasks.length + 3 * W + 3 ∧
      (c.main = .done ↔ work_left tasks c = 0) ∧
      (5 * tasks.length + 3 * W + 3 ≤ productive_steps tasks (init_config pool s0) sched →
        c.main = .done ∧ c.calls.Perm tasks) ∧
      (c.main ≠ .done →
        (∀ m wake, productive c (.main m wake) = true) ∨
          ∃ i, productive c (.worker i) = true) ∧
      (∀ b : Nat, 0 < b → room_from c.mem.heap b → b + work_left tasks c ≤ SIZE_RANGE →
        ∃ sched1 c1, sched_fresh tasks c sched1 ∧ run tasks c sched1 = .ok c1 ∧
          c1.main = .done ∧ c1.calls.Perm tasks) := by
  have hN := (thread_pool_init_QInv h W m_pool m_queue m_workers pool s0 hinit).2
  have hinv0 := init_config_Inv tasks h W m_pool m_queue m_workers pool s0 hinit
  obtain ⟨c, hrun, hpool, hinv, hwork⟩ := run_Inv tasks sched _ hinv0 hfresh
  obtain ⟨h1, h2⟩ := Inv_calls tasks c hinv
  have hWc : 1 ≤ c.pool.num_workers := by
    rw [hpool]
    show 1 ≤ pool.num_workers
    rw [hN]; exact hW
  rw [work_left_init, hN] at hwork
  have hiff := work_left_zero_iff tasks c hinv hWc
  refine ⟨c, hrun, h1, Inv_not_deadlocked tasks c hinv, fun hdone => h2 hdone hWc, hwork,
    hiff, ?_, Inv_progress tasks c hinv, ?_⟩
  · intro hsteps
    have hdone : c.main = .done := hiff.mpr (by omega)
    exact ⟨hdone, (h2 hdone hWc).1⟩
  · intro b hb hroom hbn
    exact can_finish tasks _ c b hinv rfl hroom hb hbn hWc

/-- The run of the example schedule ends with `thread_pool_finish` returned,
both workers exited and the two tasks called. -/
theorem demo_run_summary :
    summary (run demo_tasks (init_config { num_workers := 2 } mem_init) demo_sched)
      = some (.done, [.exited, .exited], demo_tasks) := by
  rfl

/-- Witness of C3: two workers, two tasks, a schedule with 19 productive
steps (and two steps of workers that go to wait) that runs to the return of
`thread_pool_finish`; and from the start, with no block live, the run can be
continued to that return. -/
theorem pool_runs_each_task_once_witness :
    (∃ c, run demo_tasks (init_config { num_workers := 2 } mem_init) demo_sched = .ok c ∧
      c.main = .done ∧
      c.calls.Perm demo_tasks ∧
      (∀ w ∈ c.workers, w = .exited) ∧
      ¬ deadlocked c ∧
      work_left demo_tasks c = 0 ∧
      productive_steps demo_tasks (init_config { num_workers := 2 } mem_init) demo_sched
        = 5 * demo_tasks.length + 3 * 2 + 3) ∧
    (∃ sched1 c1, sched_fresh demo_tasks (init_config { num_workers := 2 } mem_init) sched1 ∧
      run demo_tasks (init_config { num_workers := 2 } mem_init) sched1 = .ok c1 ∧
      c1.main = .done ∧ c1.calls.Perm demo_tasks) := by
  constructor
  · obtain ⟨c, hrun, _, hnd, hdone, hwork, hiff, _, _, _⟩ :=
      pool_runs_each_task_once Heap.empty 2 8 24 40 { num_workers := 2 } mem_init demo_tasks
        demo_sched (by decide) (by rfl)
        (by simp [sched_fresh, demo_sched, demo_tasks, init_config, mem_init, step, main_step,
              worker_step, allocates, fresh, queue_enqueue, queue_dequeue, signal_workers,
              Heap.write, Heap.free, Heap.empty, SIZE_RANGE])
    have h1 := demo_run_summary
    rw [hrun] at h1
    simp only [summary, Option.some.injEq, Prod.mk.injEq] at h1
    have h0 := hiff.mp h1.1
    exact ⟨c, hrun, h1.1, (hdone h1.1).1, (hdone h1.1).2, hnd, h0, by omega⟩
  · obtain ⟨c, hrun, _, _, _, hwork, _, _, _, hcont⟩ :=
      pool_runs_each_task_once Heap.empty 2 8 24 40 { num_workers := 2 } mem_init demo_tasks
        [] (by decide) (by rfl) trivial
    have hc : init_config { num_workers := 2 } mem_init = c := Outcome.ok.inj hrun
    subst hc
    simp only [productive_steps, Nat.add_zero] at hwork
    exact hcont 1 (by decide) (fun _ _ => rfl)
      (by rw [hwork]; simp [demo_tasks, SIZE_RANGE])

end Cracker
